import Mathlib

/-
Verification of the red-black tree container `yLab::RB_Tree` (src/include/rb_tree.hpp).

The embedding models the tree functionally.  The node structure, the search
primitives (`details::find_v2`, `details::lower_bound`, `details::upper_bound`),
the rebalancing routine (`details::rb_insert_fixup`) and the iterator are
declared in headers (`nodes.hpp`, `details.hpp`, `tree_iterator.hpp`) that are
not part of the sources; those parts are modelled from the specification and
are marked as such in their doc comments.  Everything in `rb_tree.hpp` itself
(the tree state, insertion wiring, caches, copy, move, size) is translated
directly from the source.

Pointer structure is represented as follows: a node is identified by its key
(keys are pairwise distinct in every reachable tree), the sentinel ("end node")
is a distinguished pointer value, and the parent back-references of the C++
nodes are represented implicitly by zipper paths.  The sentinel's `left_` slot
is the `root` field of the state, so invariant 6 of the spec (sentinel.left
equals root, root.parent equals sentinel) is representational.
-/

namespace yLab

/-- Color of a red-black tree node (`RB_Color` in the source). -/
inductive RB_Color where
  | red : RB_Color
  | black : RB_Color
deriving DecidableEq, Repr

/-- Modelled from the spec: `nodes.hpp` is absent from the sources.  §3 "Node":
a node stores a key, a color and left/right links; the parent back-reference
(`parent_`) is represented implicitly by `Path` contexts. -/
inductive RB_Node (K : Type) where
  | nil : RB_Node K
  | node (color : RB_Color) (left : RB_Node K) (key : K) (right : RB_Node K) : RB_Node K
deriving DecidableEq, Repr

namespace RB_Node

variable {K : Type}

/-- In-order key sequence of a subtree. -/
def toList : RB_Node K → List K
  | .nil => []
  | .node _ l v r => toList l ++ v :: toList r

/-- Key at the root of a subtree, if any. -/
def rootKey? : RB_Node K → Option K
  | .nil => none
  | .node _ _ v _ => some v

/-- Paint the root of a subtree black (used by the fix-up epilogue
"force the root's color to black unconditionally", spec §4.2). -/
def setBlack : RB_Node K → RB_Node K
  | .nil => .nil
  | .node _ l v r => .node .black l v r

/-- Predicate transformer: `P` holds at every key of the subtree. -/
def All (P : K → Prop) : RB_Node K → Prop
  | .nil => True
  | .node _ l v r => P v ∧ All P l ∧ All P r

/-- The binary-search-tree ordering invariant (spec §3, invariant 1): keys in
the left subtree are smaller than the root key, keys in the right subtree are
larger, recursively. -/
def OrderedP [LT K] : RB_Node K → Prop
  | .nil => True
  | .node _ l v r => All (· < v) l ∧ All (v < ·) r ∧ OrderedP l ∧ OrderedP r

/-- Boolean checker for the BST ordering invariant. -/
def orderedB [LinearOrder K] : RB_Node K → Bool
  | .nil => true
  | .node _ l v r =>
    (toList l).all (fun x => decide (x < v)) &&
    (toList r).all (fun x => decide (v < x)) &&
    orderedB l && orderedB r

/-- Boolean checker for invariant 3 of the spec: a red node never has a red
child (equivalently, a red node never has a red parent). -/
def noRedRedB : RB_Node K → Bool
  | .nil => true
  | .node .red l _ r =>
    (match l with | .node .red _ _ _ => false | _ => true) &&
    (match r with | .node .red _ _ _ => false | _ => true) &&
    noRedRedB l && noRedRedB r
  | .node .black l _ r => noRedRedB l && noRedRedB r

/-- Black-height checker for invariant 4 of the spec: returns `some n` when
every downward path from the root of the subtree to an absent child crosses the
same number `n` of black nodes, `none` otherwise. -/
def blackHB : RB_Node K → Option Nat
  | .nil => some 0
  | .node c l _ r =>
    match blackHB l, blackHB r with
    | some a, some b =>
      if a = b then some (a + (match c with | .black => 1 | .red => 0)) else none
    | _, _ => none

/-- Boolean checker for invariant 2 of the spec: the root is black when the
tree is non-empty. -/
def rootBlackB : RB_Node K → Bool
  | .nil => true
  | .node .black _ _ _ => true
  | .node .red _ _ _ => false

/-- The red-black balance invariant (spec §3, invariants 2-4 in inductive
form): `Balanced t c n` means the root of `t` has color `c`, every path from
the root to an absent child crosses `n` black nodes, and no red node has a red
child. -/
inductive Balanced : RB_Node K → RB_Color → Nat → Prop where
  | nil : Balanced .nil .black 0
  | red {l r : RB_Node K} {k : K} {n : Nat} :
      Balanced l .black n → Balanced r .black n → Balanced (.node .red l k r) .red n
  | black {l r : RB_Node K} {k : K} {cl cr : RB_Color} {n : Nat} :
      Balanced l cl n → Balanced r cr n → Balanced (.node .black l k r) .black (n + 1)

end RB_Node

/-- A path from the root of a tree down to a focused subtree, recording for
each step the color and key of the abandoned node together with the sibling
subtree.  This is the functional representation of the `parent_` chains of the
source: the C++ code walks parent pointers upward, the model pops frames. -/
inductive Path (K : Type) where
  | root : Path K
  | left (color : RB_Color) (parent : Path K) (key : K) (sib : RB_Node K) : Path K
  | right (color : RB_Color) (sib : RB_Node K) (key : K) (parent : Path K) : Path K
deriving DecidableEq, Repr

namespace Path

variable {K : Type}

/-- Rebuild the whole tree from a focused subtree and its path. -/
def fill : Path K → RB_Node K → RB_Node K
  | .root, t => t
  | .left c p v sib, t => p.fill (.node c t v sib)
  | .right c sib v p, t => p.fill (.node c sib v t)

/-- Keys lying strictly to the left of the focus, in in-order order. -/
def listL : Path K → List K
  | .root => []
  | .left _ p _ _ => p.listL
  | .right _ sib v p => p.listL ++ (sib.toList ++ [v])

/-- Keys lying strictly to the right of the focus, in in-order order. -/
def listR : Path K → List K
  | .root => []
  | .left _ p v sib => v :: sib.toList ++ p.listR
  | .right _ _ _ p => p.listR

/-- Number of frames of a path (termination measure for the fix-up loop). -/
def psize : Path K → Nat
  | .root => 0
  | .left _ p _ _ => p.psize + 1
  | .right _ _ _ p => p.psize + 1

/-- A path made of left descents only.  The descent towards a key smaller than
every stored key produces such a path. -/
def AllLeft : Path K → Prop
  | .root => True
  | .left _ p _ _ => AllLeft p
  | .right _ _ _ _ => False

/-- A path made of right descents only. -/
def AllRight : Path K → Prop
  | .root => True
  | .left _ _ _ _ => False
  | .right _ _ _ p => AllRight p

/-- The balance invariant for a path: `PathBal c₀ n₀ p c n` means `p` is a
`c₀, n₀`-balanced tree with a hole expecting a `c, n`-balanced subtree. -/
inductive PathBal (c₀ : RB_Color) (n₀ : Nat) : Path K → RB_Color → Nat → Prop where
  | root : PathBal c₀ n₀ .root c₀ n₀
  | redL {p : Path K} {v : K} {sib : RB_Node K} {n : Nat} :
      RB_Node.Balanced sib .black n → PathBal c₀ n₀ p .red n →
      PathBal c₀ n₀ (.left .red p v sib) .black n
  | redR {p : Path K} {v : K} {sib : RB_Node K} {n : Nat} :
      RB_Node.Balanced sib .black n → PathBal c₀ n₀ p .red n →
      PathBal c₀ n₀ (.right .red sib v p) .black n
  | blackL {p : Path K} {v : K} {sib : RB_Node K} {cs c : RB_Color} {n : Nat} :
      RB_Node.Balanced sib cs n → PathBal c₀ n₀ p .black (n + 1) →
      PathBal c₀ n₀ (.left .black p v sib) c n
  | blackR {p : Path K} {v : K} {sib : RB_Node K} {cs c : RB_Color} {n : Nat} :
      RB_Node.Balanced sib cs n → PathBal c₀ n₀ p .black (n + 1) →
      PathBal c₀ n₀ (.right .black sib v p) c n

end Path

open RB_Node Path

variable {K : Type}

/-- Modelled from the spec: `details.hpp` is absent from the sources.  §4.1
`find_with_parent` ("same descent, but also returns the last node visited
before taking the absent branch — used so insertion does not need to
re-search").  The returned path generalizes the returned parent pointer: its
head frame records the parent, the deeper frames record the grandparents that
the missing `details::rb_insert_fixup` walks through. -/
def find_v2 [LinearOrder K] : RB_Node K → K → Path K → RB_Node K × Path K
  | .nil, _, p => (.nil, p)
  | .node c l v r, k, p =>
    if k < v then find_v2 l k (.left c p v r)
    else if v < k then find_v2 r k (.right c l v p)
    else (.node c l v r, p)

/-- Modelled from the spec: `details.hpp` is absent from the sources.  §4.1
`lower_bound(key)`: "descend keeping a candidate set to the most recent node
whose key is ≥ search key when descending left; return candidate or absent".
The deepest candidate (the one set last) wins. -/
def lower_bound [LinearOrder K] : RB_Node K → K → Option K
  | .nil, _ => none
  | .node _ l v r, k =>
    if v < k then lower_bound r k
    else
      match lower_bound l k with
      | some w => some w
      | none => some v

/-- Modelled from the spec: `details.hpp` is absent from the sources.  §4.1
`upper_bound(key)`: "identical but candidate set on keys strictly greater than
the search key". -/
def upper_bound [LinearOrder K] : RB_Node K → K → Option K
  | .nil, _ => none
  | .node _ l v r, k =>
    if k < v then
      match upper_bound l k with
      | some w => some w
      | none => some v
    else upper_bound r k

/-- Modelled from the spec: `details.hpp` is absent from the sources.  §4.2
fix-up algorithm, restoring invariants 2-4 after attaching a red leaf.  The
loop "while the new node's parent is red" becomes recursion on the path; the
red-uncle case recolors and moves the cursor to the grandparent, the
black-uncle cases rotate (turning a zig-zag into a line first) and terminate.
After the loop the root is forced black.  The spec asserts the loop never runs
past the root ("root is always black"); the unreachable configurations (red
parent at the root, empty cursor) are completed by rebuilding the tree as is
and blackening the root. -/
def rb_insert_fixup : RB_Node K → Path K → RB_Node K
  | z, .root => z.setBlack
  | z, .left .black pp v pr => (pp.fill (.node .black z v pr)).setBlack
  | z, .right .black pl v pp => (pp.fill (.node .black pl v z)).setBlack
  | z, .left .red .root v pr => (RB_Node.node .red z v pr).setBlack
  | z, .left .red (.left _ gp gv (.node .red u1 uv u2)) v pr =>
    rb_insert_fixup (.node .red (.node .black z v pr) gv (.node .black u1 uv u2)) gp
  | z, .left .red (.left _ gp gv gr) v pr =>
    (gp.fill (.node .black z v (.node .red pr gv gr))).setBlack
  | z, .left .red (.right _ (.node .red u1 uv u2) gv gp) v pr =>
    rb_insert_fixup (.node .red (.node .black u1 uv u2) gv (.node .black z v pr)) gp
  | .node _ zl zv zr, .left .red (.right _ gl gv gp) v pr =>
    (gp.fill (.node .black (.node .red gl gv zl) zv (.node .red zr v pr))).setBlack
  | .nil, .left .red (.right gc gl gv gp) v pr =>
    (gp.fill (.node gc gl gv (.node .red .nil v pr))).setBlack
  | z, .right .red pl v .root => (RB_Node.node .red pl v z).setBlack
  | z, .right .red pl v (.right _ (.node .red u1 uv u2) gv gp) =>
    rb_insert_fixup (.node .red (.node .black u1 uv u2) gv (.node .black pl v z)) gp
  | z, .right .red pl v (.right _ gl gv gp) =>
    (gp.fill (.node .black (.node .red gl gv pl) v z)).setBlack
  | z, .right .red pl v (.left _ gp gv (.node .red u1 uv u2)) =>
    rb_insert_fixup (.node .red (.node .black pl v z) gv (.node .black u1 uv u2)) gp
  | .node _ zl zv zr, .right .red pl v (.left _ gp gv gr) =>
    (gp.fill (.node .black (.node .red pl v zl) zv (.node .red zr gv gr))).setBlack
  | .nil, .right .red pl v (.left gc gp gv gr) =>
    (gp.fill (.node gc (.node .red pl v .nil) gv gr)).setBlack

/-- Navigational pointer of the C++ implementation: null, the tree's own end
node (sentinel), or a real node, identified by its key (keys are pairwise
distinct in every reachable tree). -/
inductive NPtr (K : Type) where
  | null : NPtr K
  | sentinel : NPtr K
  | node (k : K) : NPtr K
deriving DecidableEq, Repr

/-- State of one `RB_Tree` object (the data members of the class, lines 48-55
of the source): `nodes` is the arena `nodes_` (keys with the color they were
allocated with, in allocation order), `hasEnd` records whether `end_node_`
still owns a sentinel (it is null only after move construction), `root` is the
sentinel's `left_` slot, `leftmost`/`rightmost` are the cached extreme
pointers, `size` is `size_`. -/
structure TreeState (K : Type) where
  nodes : List (K × RB_Color)
  hasEnd : Bool
  root : RB_Node K
  leftmost : NPtr K
  rightmost : NPtr K
  size : Nat
deriving DecidableEq, Repr

/-- A default-constructed tree: empty arena, fresh sentinel, `leftmost_`
initialized to the end node, `rightmost_` to null, size zero. -/
def emptyState : TreeState K :=
  { nodes := [], hasEnd := true, root := .nil,
    leftmost := .sentinel, rightmost := .null, size := 0 }

/-- First match of a key in a subtree (used to model dereferencing a node
pointer identified by its key; unique when keys are distinct). -/
def lookupNode [DecidableEq K] : RB_Node K → K → Option (RB_Node K)
  | .nil, _ => none
  | .node c l v r, x =>
    if v = x then some (.node c l v r)
    else
      match lookupNode l x with
      | some s => some s
      | none => lookupNode r x

/-- Pointer to the root of a subtree. -/
def nptrOf : RB_Node K → NPtr K
  | .nil => .null
  | .node _ _ v _ => .node v

/-- Dereference `p->left_` in a tree with root `t`: on the sentinel this reads
the root slot (`End_Node::left_`), on a node it reads the node's left link, on
null it is undefined behavior in C++ (modelled as null). -/
def derefLeft [DecidableEq K] (t : RB_Node K) : NPtr K → NPtr K
  | .null => .null
  | .sentinel => nptrOf t
  | .node m =>
    match lookupNode t m with
    | some (.node _ l _ _) => nptrOf l
    | _ => .null

/-- Dereference `p->right_` in a tree with root `t`; the sentinel has no
`right_` member (reading it is not expressible), modelled as null. -/
def derefRight [DecidableEq K] (t : RB_Node K) : NPtr K → NPtr K
  | .null => .null
  | .sentinel => .null
  | .node m =>
    match lookupNode t m with
    | some (.node _ _ _ r) => nptrOf r
    | _ => .null

/-- Source `RB_Tree::insert_node` (lines 233-239): allocate a node and append
it to the arena. -/
def insert_node (t : TreeState K) (k : K) (c : RB_Color) : TreeState K :=
  { t with nodes := t.nodes ++ [(k, c)] }

/-- Source `RB_Tree::insert_root` (lines 241-252): allocate a black node, make
it the root (the sentinel's left slot), point both caches at it, bump the
size. -/
def insert_root (t : TreeState K) (k : K) : TreeState K × NPtr K :=
  let t1 := insert_node t k .black
  ({ t1 with root := .node .black .nil k .nil,
             leftmost := .node k, rightmost := .node k,
             size := t1.size + 1 }, .node k)

/-- Source `RB_Tree::insert_hint_unique` (lines 254-274): allocate a red node,
attach it at the position found by the descent (left of the parent when
`key < parent->key()`, which is exactly the side recorded by the head frame of
the path), run the fix-up, then update the caches by the pointer comparisons
`new_node == leftmost_->left_` / `new_node == rightmost_->right_` on the
rebalanced tree, and bump the size. -/
def insert_hint_unique [LinearOrder K] (t : TreeState K) (p : Path K) (k : K) :
    TreeState K × NPtr K :=
  let t1 := insert_node t k .red
  let newRoot := rb_insert_fixup (.node .red .nil k .nil) p
  let lmrm : NPtr K × NPtr K :=
    if derefLeft newRoot t1.leftmost = NPtr.node k then (NPtr.node k, t1.rightmost)
    else if derefRight newRoot t1.rightmost = NPtr.node k then (t1.leftmost, NPtr.node k)
    else (t1.leftmost, t1.rightmost)
  ({ t1 with root := newRoot, leftmost := lmrm.1, rightmost := lmrm.2,
             size := t1.size + 1 }, .node k)

/-- Source `RB_Tree::insert` (lines 151-170): empty tree (tested via
`empty()`, i.e. `size_ == 0`) inserts the root; otherwise the descent either
finds an equal key (no mutation, `false`) or hands the attachment point to
`insert_hint_unique`. -/
def insert [LinearOrder K] (t : TreeState K) (k : K) : TreeState K × NPtr K × Bool :=
  if t.size = 0 then
    let tp := insert_root t k
    (tp.1, tp.2, true)
  else
    match find_v2 t.root k .root with
    | (.nil, p) =>
      let tp := insert_hint_unique t p k
      (tp.1, tp.2, true)
    | (.node _ _ v _, _) => (t, .node v, false)

/-- Source `RB_Tree::insert_unique` (lines 276-287): like `insert` but
discarding the returned position and flag. -/
def insert_unique [LinearOrder K] (t : TreeState K) (k : K) : TreeState K :=
  if t.size = 0 then (insert_root t k).1
  else
    match find_v2 t.root k .root with
    | (.nil, p) => (insert_hint_unique t p k).1
    | (.node _ _ _ _, _) => t

/-- Source `RB_Tree::insert(it first, it last)` (lines 172-177): call
`insert_unique` on each element in order. -/
def insertRange [LinearOrder K] (t : TreeState K) (ks : List K) : TreeState K :=
  ks.foldl insert_unique t

/-- Source `RB_Tree::insert(std::initializer_list)` (lines 179-183): call
`insert_unique` on each element in order. -/
def insertIList [LinearOrder K] (t : TreeState K) (ks : List K) : TreeState K :=
  ks.foldl insert_unique t

/-- Fold the single-key insert over a list of keys, starting from the empty
tree (an arbitrary "sequence of insert operations" of the claims). -/
def insertList [LinearOrder K] (ks : List K) : TreeState K :=
  ks.foldl (fun s k => (insert s k).1) emptyState

/-- Allocation order of the copy constructor's paired walk: the root is made
first, then each node is made when the walk first descends into it (left
subtree before right subtree at every node), i.e. preorder. -/
def preorder : RB_Node K → List (K × RB_Color)
  | .nil => []
  | .node c l v r => (v, c) :: preorder l ++ preorder r

/-- Does the copy walk take a left descent into the node `p` points at?  The
walk's branch `rhs_node->left_ && node->left_ == nullptr` descends exactly once
into every left child, so the pointer comparison `rhs_node == rhs.leftmost_`
inside that branch fires if and only if the pointee is some node's left
child. -/
def leftDescentHits [DecidableEq K] (t : RB_Node K) : NPtr K → Bool
  | .null => false
  | .sentinel => false
  | .node m =>
    match t with
    | .nil => false
    | .node _ l _ r =>
      (match l with | .node _ _ lk _ => decide (lk = m) | .nil => false) ||
      leftDescentHits l (.node m) || leftDescentHits r (.node m)

/-- Does the copy walk take a right descent into the node `p` points at? -/
def rightDescentHits [DecidableEq K] (t : RB_Node K) : NPtr K → Bool
  | .null => false
  | .sentinel => false
  | .node m =>
    match t with
    | .nil => false
    | .node _ l _ r =>
      (match r with | .node _ _ rk _ => decide (rk = m) | .nil => false) ||
      rightDescentHits l (.node m) || rightDescentHits r (.node m)

/-- Source copy constructor `RB_Tree(const self &rhs)` (lines 61-102): copy the
size, and when the source has a root, clone the structure by the paired
iterative walk.  The walk copies every node with its key and color, so the
cloned structure equals the source structure; the caches start from their
default member initializers (`leftmost_ = end_node()`, `rightmost_ = nullptr`)
and are reassigned only inside the left/right descent branches, when the walk
descends into the node the source cache points at. -/
def copyCtor [DecidableEq K] (rhs : TreeState K) : TreeState K :=
  if rhs.root = .nil then
    { nodes := [], hasEnd := true, root := .nil,
      leftmost := .sentinel, rightmost := .null, size := rhs.size }
  else
    { nodes := preorder rhs.root, hasEnd := true, root := rhs.root,
      leftmost := if leftDescentHits rhs.root rhs.leftmost then rhs.leftmost
                  else .sentinel,
      rightmost := if rightDescentHits rhs.root rhs.rightmost then rhs.rightmost
                   else .null,
      size := rhs.size }

/-- Source move constructor `RB_Tree(self &&rhs)` (lines 112-117), with the
misspelled member `rhs.node_` read as `rhs.nodes_`.  The member initializers
run in declaration order: by the time `leftmost_` is initialized,
`rhs.end_node_` has already been moved out, so `std::exchange (rhs.leftmost_,
rhs.end_node())` resets `rhs.leftmost_` to null, not to the source's own
sentinel; the source is left with no sentinel at all (`hasEnd := false`). -/
def moveCtor (rhs : TreeState K) : TreeState K × TreeState K :=
  ({ nodes := rhs.nodes, hasEnd := rhs.hasEnd, root := rhs.root,
     leftmost := rhs.leftmost, rightmost := rhs.rightmost, size := rhs.size },
   { nodes := [], hasEnd := false, root := .nil,
     leftmost := .null, rightmost := .null, size := 0 })

/-- Source move assignment `operator=(self &&rhs)` (lines 119-128): swap every
member, hence exchange the two complete states.  Returns (new lhs, new rhs). -/
def moveAssign (lhs rhs : TreeState K) : TreeState K × TreeState K :=
  (rhs, lhs)

/-- Position of `begin()`: the `leftmost_` pointer (source line 139). -/
def beginPtr (t : TreeState K) : NPtr K := t.leftmost

/-- Position of `end()`: the tree's own end node (source line 143), a null
pointer if the sentinel has been moved away. -/
def endPtr (t : TreeState K) : NPtr K :=
  if t.hasEnd then .sentinel else .null

/-- Iterator equality `begin() == end()` (identity of the underlying
pointers). -/
def beginEqEnd [DecidableEq K] (t : TreeState K) : Bool :=
  decide (beginPtr t = endPtr t)

/-- Source `RB_Tree::empty` (line 135): `size_ == 0`. -/
def emptyB (t : TreeState K) : Bool := decide (t.size = 0)

/-- Fallible allocation for `insert_node` (lines 233-239): `new node_type`
either yields the node or throws, in which case the exception escapes before
any member of the tree has been touched.  The error value carries the state
observed by the caller when the exception propagates. -/
def insert_nodeE (allocOk : Bool) (t : TreeState K) (k : K) (c : RB_Color) :
    Except (TreeState K) (TreeState K) :=
  if allocOk then .ok { t with nodes := t.nodes ++ [(k, c)] } else .error t

/-- Fallible `insert_root`: the allocation happens first; the root, caches and
size are only written after it succeeded. -/
def insert_rootE (allocOk : Bool) (t : TreeState K) (k : K) :
    Except (TreeState K) (TreeState K × NPtr K) := do
  let t1 ← insert_nodeE allocOk t k .black
  pure ({ t1 with root := .node .black .nil k .nil,
                  leftmost := .node k, rightmost := .node k,
                  size := t1.size + 1 }, .node k)

/-- Fallible `insert_hint_unique`: the allocation happens first; the links,
fix-up, caches and size are only touched after it succeeded. -/
def insert_hint_uniqueE [LinearOrder K] (allocOk : Bool) (t : TreeState K)
    (p : Path K) (k : K) : Except (TreeState K) (TreeState K × NPtr K) := do
  let t1 ← insert_nodeE allocOk t k .red
  let newRoot := rb_insert_fixup (.node .red .nil k .nil) p
  let lmrm : NPtr K × NPtr K :=
    if derefLeft newRoot t1.leftmost = NPtr.node k then (NPtr.node k, t1.rightmost)
    else if derefRight newRoot t1.rightmost = NPtr.node k then (t1.leftmost, NPtr.node k)
    else (t1.leftmost, t1.rightmost)
  pure ({ t1 with root := newRoot, leftmost := lmrm.1, rightmost := lmrm.2,
                  size := t1.size + 1 }, .node k)

/-- Source `RB_Tree::insert` with a fallible allocator: the duplicate branch
returns before any allocation is attempted, and both allocating branches
allocate before mutating anything. -/
def insertE [LinearOrder K] (allocOk : Bool) (t : TreeState K) (k : K) :
    Except (TreeState K) (TreeState K × NPtr K × Bool) :=
  if t.size = 0 then do
    let tp ← insert_rootE allocOk t k
    pure (tp.1, tp.2, true)
  else
    match find_v2 t.root k .root with
    | (.nil, p) => do
      let tp ← insert_hint_uniqueE allocOk t p k
      pure (tp.1, tp.2, true)
    | (.node _ _ v _, _) => .ok (t, .node v, false)

/-- Modelled from the spec: `tree_iterator.hpp` is absent from the sources.
Descend to the leftmost node of a focused subtree (the first half of §4.3
increment: "if a right child exists, move to the leftmost node of that
subtree"). -/
def leftmostFocus : RB_Node K → Path K → RB_Node K × Path K
  | .nil, p => (.nil, p)
  | .node c .nil v r, p => (.node c .nil v r, p)
  | .node c (.node cl ll lv lr) v r, p =>
    leftmostFocus (.node cl ll lv lr) (.left c p v r)

/-- Modelled from the spec: `tree_iterator.hpp` is absent from the sources.
The climbing half of §4.3 increment: "climb via parent links while the current
node is a right child, then step to the parent"; reaching the sentinel (the
path runs out) yields the end position. -/
def upSucc : RB_Node K → Path K → Option (RB_Node K × Path K)
  | _, .root => none
  | t, .left c pp v pr => some (.node c t v pr, pp)
  | t, .right c pl v pp => upSucc (.node c pl v t) pp

/-- Modelled from the spec: §4.3 "standard Cormen-style successor" step of the
bidirectional iterator, on a focused node. -/
def succFocus : RB_Node K × Path K → Option (RB_Node K × Path K)
  | (.node c l v (.node rc rl rv rr), p) =>
    some (leftmostFocus (.node rc rl rv rr) (.right c l v p))
  | (.node c l v .nil, p) => upSucc (.node c l v .nil) p
  | (.nil, _) => none

/-- Walk the iterator from a focus to the end position, collecting the visited
keys.  The fuel bounds the number of emitted keys; the traversal of a valid
tree needs exactly `size()` steps. -/
def walkFrom : Nat → RB_Node K × Path K → List K
  | 0, _ => []
  | _ + 1, (.nil, _) => []
  | fuel + 1, (.node c l v r, p) =>
    v :: (match succFocus (.node c l v r, p) with
          | none => []
          | some f => walkFrom fuel f)

/-- The in-order traversal `for (auto it = begin(); it != end(); ++it)` of a
tree: start at the node the `leftmost_` cache points at (source line 139) and
follow the iterator's successor steps.  When `begin()` is already the end
position the traversal is empty; a null `begin()` dereference is undefined
behavior in C++ and yields the empty sequence in the model. -/
def traversal [LinearOrder K] (t : TreeState K) : List K :=
  match t.leftmost with
  | .sentinel => []
  | .null => []
  | .node m => walkFrom t.root.toList.length (find_v2 t.root m .root)

/-- One public mutation step of claim C8: a single-key insert, a range insert
or an initializer-list insert. -/
inductive InsOp (K : Type) where
  | one (k : K) : InsOp K
  | many (ks : List K) : InsOp K
  | ilist (ks : List K) : InsOp K

/-- Apply one mutation step. -/
def applyOp [LinearOrder K] (t : TreeState K) : InsOp K → TreeState K
  | .one k => (insert t k).1
  | .many ks => insertRange t ks
  | .ilist ks => insertIList t ks

/-- Apply a sequence of mutation steps to the empty tree. -/
def applyOps [LinearOrder K] (ops : List (InsOp K)) : TreeState K :=
  ops.foldl applyOp emptyState

/-- All keys offered to a sequence of mutation steps, in order. -/
def opKeys : List (InsOp K) → List K
  | [] => []
  | .one k :: ops => k :: opKeys ops
  | .many ks :: ops => ks ++ opKeys ops
  | .ilist ks :: ops => ks ++ opKeys ops

/-- Does the tree contain a node with key `a` whose left child is a node with
key `b`?  Used to track the `parent->left_ == new_node` link that the cache
update of `insert_hint_unique` tests after the fix-up. -/
def containsEdgeL [DecidableEq K] : RB_Node K → K → K → Bool
  | .nil, _, _ => false
  | .node _ l v r, a, b =>
    (decide (v = a) && (match l with | .node _ _ lk _ => decide (lk = b) | .nil => false)) ||
    containsEdgeL l a b || containsEdgeL r a b

/-- Does the tree contain a node with key `a` whose right child is a node with
key `b`? -/
def containsEdgeR [DecidableEq K] : RB_Node K → K → K → Bool
  | .nil, _, _ => false
  | .node _ l v r, a, b =>
    (decide (v = a) && (match r with | .node _ _ rk _ => decide (rk = b) | .nil => false)) ||
    containsEdgeR l a b || containsEdgeR r a b

/-- Well-formedness of a reachable tree state: the root satisfies the ordering
and balance invariants, the size counter equals the number of stored keys, the
sentinel is owned, and the two caches point at the in-order minimum and
maximum (at the sentinel resp. null when the tree is empty). -/
structure StInv [LinearOrder K] (t : TreeState K) : Prop where
  ord : OrderedP t.root
  bal : ∃ n, Balanced t.root .black n
  sz : t.size = t.root.toList.length
  send : t.hasEnd = true
  lm : t.leftmost = (match t.root.toList.head? with
                     | none => NPtr.sentinel
                     | some m => NPtr.node m)
  rm : t.rightmost = (match t.root.toList.getLast? with
                      | none => NPtr.null
                      | some m => NPtr.node m)

/-- Claim C1, stated over the checkers: the five red-black invariants of §3
hold of the state.  The sentinel linkage (invariant 6) is representational in
the embedding: the `root` field of the state is the sentinel's `left_` slot,
and the parent of the root is the sentinel by construction of `Path`-based
navigation; the checkable remnant is that the tree still owns its sentinel. -/
def rbInvariantsHold [LinearOrder K] (t : TreeState K) : Prop :=
  orderedB t.root = true ∧ rootBlackB t.root = true ∧ noRedRedB t.root = true ∧
  (blackHB t.root).isSome = true ∧ t.hasEnd = true

/-- Claim C2, stated over the iterator model: the begin-to-end traversal is
exactly the in-order key sequence, it is strictly ascending, it has no
duplicates, and it mentions exactly the stored keys. -/
def traversalSpec [LinearOrder K] (t : TreeState K) : Prop :=
  traversal t = t.root.toList ∧
  List.Pairwise (· < ·) (traversal t) ∧
  (traversal t).Nodup ∧
  (∀ k : K, k ∈ traversal t ↔ k ∈ t.root.toList)

/-- Claim C6, stated over the bound queries: `lower_bound` returns the least
stored key ≥ k (none, i.e. `end()`, when there is none), `upper_bound` returns
the least stored key > k, a present key is located by `lower_bound`, and
`upper_bound` of a present key is its in-order successor (the first stored key
after `k` in the in-order sequence). -/
def boundsSpec [LinearOrder K] (t : TreeState K) (k : K) : Prop :=
  (∀ w, lower_bound t.root k = some w →
    w ∈ t.root.toList ∧ k ≤ w ∧ ∀ x ∈ t.root.toList, k ≤ x → w ≤ x) ∧
  (lower_bound t.root k = none → ∀ x ∈ t.root.toList, x < k) ∧
  (∀ w, upper_bound t.root k = some w →
    w ∈ t.root.toList ∧ k < w ∧ ∀ x ∈ t.root.toList, k < x → w ≤ x) ∧
  (upper_bound t.root k = none → ∀ x ∈ t.root.toList, x ≤ k) ∧
  (k ∈ t.root.toList → lower_bound t.root k = some k) ∧
  (k ∈ t.root.toList →
    upper_bound t.root k = (t.root.toList.filter (fun x => decide (k < x))).head?)

/-
Lemma layer.  First the list-level facts about `toList`, `fill` and the
descent, then the balance invariant, then the cache bookkeeping, and finally
the per-claim theorems.
-/

theorem toList_setBlack (t : RB_Node K) : t.setBlack.toList = t.toList := by
  cases t <;> rfl

theorem toList_eq_nil_iff (t : RB_Node K) : t.toList = [] ↔ t = .nil := by
  cases t <;> simp [RB_Node.toList]

theorem fill_toList (p : Path K) (t : RB_Node K) :
    (p.fill t).toList = p.listL ++ t.toList ++ p.listR := by
  induction p generalizing t with
  | root => simp [Path.fill, Path.listL, Path.listR]
  | left c pp v sib ih =>
    simp [Path.fill, Path.listL, Path.listR, ih, RB_Node.toList, List.append_assoc]
  | right c sib v pp ih =>
    simp [Path.fill, Path.listL, Path.listR, ih, RB_Node.toList, List.append_assoc]

theorem find_v2_fill [LinearOrder K] :
    ∀ (t : RB_Node K) (k : K) (p : Path K) {t' : RB_Node K} {p' : Path K},
      find_v2 t k p = (t', p') → p'.fill t' = p.fill t
  | .nil, k, p, t', p', h => by
    simp [find_v2] at h
    simp [h.1, h.2]
  | .node c l v r, k, p, t', p', h => by
    rw [find_v2] at h
    by_cases h1 : k < v
    · simp only [if_pos h1] at h
      exact find_v2_fill l k (.left c p v r) h
    · by_cases h2 : v < k
      · simp only [if_neg h1, if_pos h2] at h
        exact find_v2_fill r k (.right c l v p) h
      · simp only [if_neg h1, if_neg h2] at h
        cases h
        rfl

theorem all_iff {P : K → Prop} : ∀ t : RB_Node K, All P t ↔ ∀ x ∈ t.toList, P x
  | .nil => by simp [RB_Node.All, RB_Node.toList]
  | .node c l v r => by
    simp [RB_Node.All, RB_Node.toList, all_iff l, all_iff r]
    constructor
    · rintro ⟨hv, hl, hr⟩ x hx
      rcases hx with hx | rfl | hx
      · exact hl x hx
      · exact hv
      · exact hr x hx
    · intro h
      exact ⟨h v (Or.inr (Or.inl rfl)), fun x hx => h x (Or.inl hx),
             fun x hx => h x (Or.inr (Or.inr hx))⟩

theorem orderedP_iff_pairwise [LinearOrder K] :
    ∀ t : RB_Node K, OrderedP t ↔ List.Pairwise (· < ·) t.toList
  | .nil => by simp [RB_Node.OrderedP, RB_Node.toList]
  | .node c l v r => by
    simp [RB_Node.OrderedP, RB_Node.toList, List.pairwise_append, List.pairwise_cons,
      all_iff, orderedP_iff_pairwise l, orderedP_iff_pairwise r]
    constructor
    · rintro ⟨hl, hr, pl, pr⟩
      refine ⟨pl, ⟨hr, pr⟩, ?_⟩
      intro a ha
      exact ⟨hl a ha, fun b hb => (hl a ha).trans (hr b hb)⟩
    · rintro ⟨pl, ⟨hr, pr⟩, hcross⟩
      exact ⟨fun a ha => (hcross a ha).1, hr, pl, pr⟩

theorem find_v2_found [LinearOrder K] :
    ∀ (t : RB_Node K) (k : K) (p : Path K) {c : RB_Color} {l r : RB_Node K} {v : K}
      {p' : Path K}, find_v2 t k p = (.node c l v r, p') → v = k
  | .nil, k, p, c, l, r, v, p', h => by simp [find_v2] at h
  | .node c0 l0 v0 r0, k, p, c, l, r, v, p', h => by
    rw [find_v2] at h
    by_cases h1 : k < v0
    · simp only [if_pos h1] at h
      exact find_v2_found l0 k _ h
    · by_cases h2 : v0 < k
      · simp only [if_neg h1, if_pos h2] at h
        exact find_v2_found r0 k _ h
      · simp only [if_neg h1, if_neg h2] at h
        cases h
        exact le_antisymm (not_lt.1 h1) (not_lt.1 h2)

theorem find_v2_bounds [LinearOrder K] :
    ∀ (t : RB_Node K) (k : K) (p : Path K) {t' : RB_Node K} {p' : Path K},
      OrderedP t → (∀ a ∈ p.listL, a < k) → (∀ b ∈ p.listR, k < b) →
      find_v2 t k p = (t', p') →
      OrderedP t' ∧ (∀ a ∈ p'.listL, a < k) ∧ (∀ b ∈ p'.listR, k < b)
  | .nil, k, p, t', p', ht, hL, hR, h => by
    simp [find_v2] at h
    rcases h with ⟨rfl, rfl⟩
    exact ⟨trivial, hL, hR⟩
  | .node c l v r, k, p, t', p', ht, hL, hR, h => by
    obtain ⟨hlv, hvr, hol, hor⟩ := ht
    rw [find_v2] at h
    by_cases h1 : k < v
    · simp only [if_pos h1] at h
      refine find_v2_bounds l k (.left c p v r) hol hL ?_ h
      intro b hb
      simp [Path.listR] at hb
      rcases hb with rfl | hb | hb
      · exact h1
      · exact h1.trans ((all_iff r).1 hvr b hb)
      · exact hR b hb
    · by_cases h2 : v < k
      · simp only [if_neg h1, if_pos h2] at h
        refine find_v2_bounds r k (.right c l v p) hor ?_ hR h
        intro a ha
        simp [Path.listL] at ha
        rcases ha with ha | ha | rfl
        · exact hL a ha
        · exact ((all_iff l).1 hlv a ha).trans h2
        · exact h2
      · simp only [if_neg h1, if_neg h2] at h
        cases h
        exact ⟨⟨hlv, hvr, hol, hor⟩, hL, hR⟩

theorem balanced_setBlack {t : RB_Node K} {c : RB_Color} {n : Nat}
    (h : Balanced t c n) : ∃ m, Balanced t.setBlack .black m := by
  cases h with
  | nil => exact ⟨0, .nil⟩
  | red hl hr => exact ⟨_, .black hl hr⟩
  | black hl hr => exact ⟨_, .black hl hr⟩

theorem pathBal_fill {c₀ : RB_Color} {n₀ : Nat} :
    ∀ {p : Path K} {c : RB_Color} {n : Nat} {t : RB_Node K},
      PathBal c₀ n₀ p c n → Balanced t c n → Balanced (p.fill t) c₀ n₀ := by
  intro p c n t hp
  induction hp generalizing t with
  | root => exact fun h => h
  | redL hs hp ih => exact fun ht => ih (.red ht hs)
  | redR hs hp ih => exact fun ht => ih (.red hs ht)
  | blackL hs hp ih => exact fun ht => ih (.black ht hs)
  | blackR hs hp ih => exact fun ht => ih (.black hs ht)

theorem find_v2_bal [LinearOrder K] {c₀ : RB_Color} {n₀ : Nat} :
    ∀ (t : RB_Node K) (k : K) (p : Path K) {t' : RB_Node K} {p' : Path K}
      {c : RB_Color} {n : Nat},
      Balanced t c n → PathBal c₀ n₀ p c n → find_v2 t k p = (t', p') →
      ∃ c' n', Balanced t' c' n' ∧ PathBal c₀ n₀ p' c' n'
  | .nil, k, p, t', p', c, n, ht, hp, h => by
    simp [find_v2] at h
    rcases h with ⟨rfl, rfl⟩
    exact ⟨c, n, ht, hp⟩
  | .node c0 l v r, k, p, t', p', c, n, ht, hp, h => by
    rw [find_v2] at h
    by_cases h1 : k < v
    · simp only [if_pos h1] at h
      cases ht with
      | red hl hr => exact find_v2_bal l k _ hl (.redL hr hp) h
      | black hl hr => exact find_v2_bal l k _ hl (.blackL hr hp) h
    · by_cases h2 : v < k
      · simp only [if_neg h1, if_pos h2] at h
        cases ht with
        | red hl hr => exact find_v2_bal r k _ hr (.redR hl hp) h
        | black hl hr => exact find_v2_bal r k _ hr (.blackR hl hp) h
      · simp only [if_neg h1, if_neg h2] at h
        cases h
        exact ⟨c, n, ht, hp⟩

theorem fixup_bal :
    ∀ (p : Path K) (z : RB_Node K) {c₀ : RB_Color} {n₀ : Nat} {c : RB_Color} {n : Nat},
      PathBal c₀ n₀ p c n → Balanced z .red n →
      ∃ m, Balanced (rb_insert_fixup z p) .black m
  | .root, z, _, _, _, _, hp, hz => by
    cases hp
    rw [rb_insert_fixup]
    exact balanced_setBlack hz
  | .left .black pp v pr, z, _, _, _, _, hp, hz => by
    cases hp with
    | blackL hs hpp =>
      rw [rb_insert_fixup]
      exact balanced_setBlack (pathBal_fill hpp (.black hz hs))
  | .right .black pl v pp, z, _, _, _, _, hp, hz => by
    cases hp with
    | blackR hs hpp =>
      rw [rb_insert_fixup]
      exact balanced_setBlack (pathBal_fill hpp (.black hs hz))
  | .left .red .root v pr, z, _, _, _, _, hp, hz => by
    cases hp with
    | redL hs hpp =>
      cases hpp
      rw [rb_insert_fixup]
      exact ⟨_, .black hz hs⟩
  | .left .red (.left gc gp gv (.node .red u1 uv u2)) v pr, z, _, _, _, _, hp, hz => by
    cases hp with
    | redL hs hpp =>
      cases hpp with
      | blackL hu hgp =>
        cases hu with
        | red hu1 hu2 =>
          rw [rb_insert_fixup]
          exact fixup_bal gp _ hgp (.red (.black hz hs) (.black hu1 hu2))
  | .left .red (.left gc gp gv .nil) v pr, z, _, _, _, _, hp, hz => by
    cases hp with
    | redL hs hpp =>
      cases hpp with
      | blackL hu hgp =>
        rw [rb_insert_fixup]
        cases hu
        exact balanced_setBlack (pathBal_fill hgp (.black hz (.red hs .nil)))
        all_goals intro u1 uv u2 h
        all_goals simp at h
  | .left .red (.left gc gp gv (.node .black ul uk ur)) v pr, z, _, _, _, _, hp, hz => by
    cases hp with
    | redL hs hpp =>
      cases hpp with
      | blackL hu hgp =>
        rw [rb_insert_fixup]
        all_goals try (intro u1 uv u2 h; simp at h)
        cases hu with
        | black hu1 hu2 =>
          exact balanced_setBlack (pathBal_fill hgp (.black hz (.red hs (.black hu1 hu2))))
  | .left .red (.right gc (.node .red u1 uv u2) gv gp) v pr, z, _, _, _, _, hp, hz => by
    cases hp with
    | redL hs hpp =>
      cases hpp with
      | blackR hu hgp =>
        cases hu with
        | red hu1 hu2 =>
          rw [rb_insert_fixup]
          exact fixup_bal gp _ hgp (.red (.black hu1 hu2) (.black hz hs))
  | .left .red (.right gc .nil gv gp) v pr, z, _, _, _, _, hp, hz => by
    cases hp with
    | redL hs hpp =>
      cases hpp with
      | blackR hu hgp =>
        cases hu
        cases hz with
        | red hzl hzr =>
          rw [rb_insert_fixup]
          exact balanced_setBlack
            (pathBal_fill hgp (.black (.red .nil hzl) (.red hzr hs)))
          all_goals intro u1 uv u2 h
          all_goals simp at h
  | .left .red (.right gc (.node .black ul uk ur) gv gp) v pr, z, _, _, _, _, hp, hz => by
    cases hp with
    | redL hs hpp =>
      cases hpp with
      | blackR hu hgp =>
        cases hu with
        | black hu1 hu2 =>
          cases hz with
          | red hzl hzr =>
            rw [rb_insert_fixup]
            exact balanced_setBlack
              (pathBal_fill hgp (.black (.red (.black hu1 hu2) hzl) (.red hzr hs)))
            all_goals intro u1 uv u2 h
            all_goals simp at h
  | .right .red pl v .root, z, _, _, _, _, hp, hz => by
    cases hp with
    | redR hs hpp =>
      cases hpp
      rw [rb_insert_fixup]
      exact ⟨_, .black hs hz⟩
  | .right .red pl v (.right gc (.node .red u1 uv u2) gv gp), z, _, _, _, _, hp, hz => by
    cases hp with
    | redR hs hpp =>
      cases hpp with
      | blackR hu hgp =>
        cases hu with
        | red hu1 hu2 =>
          rw [rb_insert_fixup]
          exact fixup_bal gp _ hgp (.red (.black hu1 hu2) (.black hs hz))
  | .right .red pl v (.right gc .nil gv gp), z, _, _, _, _, hp, hz => by
    cases hp with
    | redR hs hpp =>
      cases hpp with
      | blackR hu hgp =>
        cases hu
        rw [rb_insert_fixup]
        exact balanced_setBlack (pathBal_fill hgp (.black (.red .nil hs) hz))
        all_goals intro u1 uv u2 h
        all_goals simp at h
  | .right .red pl v (.right gc (.node .black ul uk ur) gv gp), z, _, _, _, _, hp, hz => by
    cases hp with
    | redR hs hpp =>
      cases hpp with
      | blackR hu hgp =>
        cases hu with
        | black hu1 hu2 =>
          rw [rb_insert_fixup]
          exact balanced_setBlack
            (pathBal_fill hgp (.black (.red (.black hu1 hu2) hs) hz))
          all_goals intro u1 uv u2 h
          all_goals simp at h
  | .right .red pl v (.left gc gp gv (.node .red u1 uv u2)), z, _, _, _, _, hp, hz => by
    cases hp with
    | redR hs hpp =>
      cases hpp with
      | blackL hu hgp =>
        cases hu with
        | red hu1 hu2 =>
          rw [rb_insert_fixup]
          exact fixup_bal gp _ hgp (.red (.black hs hz) (.black hu1 hu2))
  | .right .red pl v (.left gc gp gv .nil), z, _, _, _, _, hp, hz => by
    cases hp with
    | redR hs hpp =>
      cases hpp with
      | blackL hu hgp =>
        cases hu
        cases hz with
        | red hzl hzr =>
          rw [rb_insert_fixup]
          exact balanced_setBlack
            (pathBal_fill hgp (.black (.red hs hzl) (.red hzr .nil)))
          all_goals intro u1 uv u2 h
          all_goals simp at h
  | .right .red pl v (.left gc gp gv (.node .black ul uk ur)), z, _, _, _, _, hp, hz => by
    cases hp with
    | redR hs hpp =>
      cases hpp with
      | blackL hu hgp =>
        cases hu with
        | black hu1 hu2 =>
          cases hz with
          | red hzl hzr =>
            rw [rb_insert_fixup]
            exact balanced_setBlack
              (pathBal_fill hgp (.black (.red hs hzl) (.red hzr (.black hu1 hu2))))
            all_goals intro u1 uv u2 h
            all_goals simp at h

theorem fixup_toList :
    ∀ (p : Path K) (z : RB_Node K),
      (rb_insert_fixup z p).toList = p.listL ++ z.toList ++ p.listR
  | .root, z => by
    simp [rb_insert_fixup, toList_setBlack, Path.listL, Path.listR]
  | .left .black pp v pr, z => by
    simp [rb_insert_fixup, toList_setBlack, fill_toList, Path.listL, Path.listR,
      RB_Node.toList, List.append_assoc]
  | .right .black pl v pp, z => by
    simp [rb_insert_fixup, toList_setBlack, fill_toList, Path.listL, Path.listR,
      RB_Node.toList, List.append_assoc]
  | .left .red .root v pr, z => by
    simp [rb_insert_fixup, RB_Node.setBlack, Path.listL, Path.listR, RB_Node.toList,
      List.append_assoc]
  | .left .red (.left gc gp gv (.node .red u1 uv u2)) v pr, z => by
    rw [rb_insert_fixup, fixup_toList gp _]
    simp [Path.listL, Path.listR, RB_Node.toList, List.append_assoc]
  | .left .red (.left gc gp gv .nil) v pr, z => by
    simp [rb_insert_fixup, toList_setBlack, fill_toList, Path.listL, Path.listR,
      RB_Node.toList, List.append_assoc]
  | .left .red (.left gc gp gv (.node .black ul uk ur)) v pr, z => by
    simp [rb_insert_fixup, toList_setBlack, fill_toList, Path.listL, Path.listR,
      RB_Node.toList, List.append_assoc]
  | .left .red (.right gc (.node .red u1 uv u2) gv gp) v pr, z => by
    rw [rb_insert_fixup, fixup_toList gp _]
    simp [Path.listL, Path.listR, RB_Node.toList, List.append_assoc]
  | .left .red (.right gc .nil gv gp) v pr, .node zc zl zv zr => by
    simp [rb_insert_fixup, toList_setBlack, fill_toList, Path.listL, Path.listR,
      RB_Node.toList, List.append_assoc]
  | .left .red (.right gc (.node .black ul uk ur) gv gp) v pr, .node zc zl zv zr => by
    simp [rb_insert_fixup, toList_setBlack, fill_toList, Path.listL, Path.listR,
      RB_Node.toList, List.append_assoc]
  | .left .red (.right gc .nil gv gp) v pr, .nil => by
    simp [rb_insert_fixup, toList_setBlack, fill_toList, Path.listL, Path.listR,
      RB_Node.toList, List.append_assoc]
  | .left .red (.right gc (.node .black ul uk ur) gv gp) v pr, .nil => by
    simp [rb_insert_fixup, toList_setBlack, fill_toList, Path.listL, Path.listR,
      RB_Node.toList, List.append_assoc]
  | .right .red pl v .root, z => by
    simp [rb_insert_fixup, RB_Node.setBlack, Path.listL, Path.listR, RB_Node.toList,
      List.append_assoc]
  | .right .red pl v (.right gc (.node .red u1 uv u2) gv gp), z => by
    rw [rb_insert_fixup, fixup_toList gp _]
    simp [Path.listL, Path.listR, RB_Node.toList, List.append_assoc]
  | .right .red pl v (.right gc .nil gv gp), z => by
    simp [rb_insert_fixup, toList_setBlack, fill_toList, Path.listL, Path.listR,
      RB_Node.toList, List.append_assoc]
  | .right .red pl v (.right gc (.node .black ul uk ur) gv gp), z => by
    simp [rb_insert_fixup, toList_setBlack, fill_toList, Path.listL, Path.listR,
      RB_Node.toList, List.append_assoc]
  | .right .red pl v (.left gc gp gv (.node .red u1 uv u2)), z => by
    rw [rb_insert_fixup, fixup_toList gp _]
    simp [Path.listL, Path.listR, RB_Node.toList, List.append_assoc]
  | .right .red pl v (.left gc gp gv .nil), .node zc zl zv zr => by
    simp [rb_insert_fixup, toList_setBlack, fill_toList, Path.listL, Path.listR,
      RB_Node.toList, List.append_assoc]
  | .right .red pl v (.left gc gp gv (.node .black ul uk ur)), .node zc zl zv zr => by
    simp [rb_insert_fixup, toList_setBlack, fill_toList, Path.listL, Path.listR,
      RB_Node.toList, List.append_assoc]
  | .right .red pl v (.left gc gp gv .nil), .nil => by
    simp [rb_insert_fixup, toList_setBlack, fill_toList, Path.listL, Path.listR,
      RB_Node.toList, List.append_assoc]
  | .right .red pl v (.left gc gp gv (.node .black ul uk ur)), .nil => by
    simp [rb_insert_fixup, toList_setBlack, fill_toList, Path.listL, Path.listR,
      RB_Node.toList, List.append_assoc]

theorem balanced_noRedRedB {t : RB_Node K} {c : RB_Color} {n : Nat}
    (h : Balanced t c n) : noRedRedB t = true := by
  induction h with
  | nil => rfl
  | red hl hr ihl ihr => cases hl <;> cases hr <;> simp_all [noRedRedB]
  | black hl hr ihl ihr => simp [noRedRedB, ihl, ihr]

theorem balanced_blackHB {t : RB_Node K} {c : RB_Color} {n : Nat}
    (h : Balanced t c n) : blackHB t = some n := by
  induction h with
  | nil => rfl
  | red hl hr ihl ihr => simp [blackHB, ihl, ihr]
  | black hl hr ihl ihr => simp [blackHB, ihl, ihr]

theorem balanced_rootBlackB {t : RB_Node K} {n : Nat}
    (h : Balanced t .black n) : rootBlackB t = true := by
  cases h <;> rfl

theorem orderedB_iff [LinearOrder K] :
    ∀ t : RB_Node K, orderedB t = true ↔ OrderedP t
  | .nil => by simp [orderedB, OrderedP]
  | .node c l v r => by
    simp [orderedB, OrderedP, all_iff, orderedB_iff l, orderedB_iff r,
      List.all_eq_true, and_assoc, and_comm, and_left_comm]

theorem pairwise_lt_nodup [LinearOrder K] {l : List K}
    (h : List.Pairwise (· < ·) l) : l.Nodup :=
  h.imp ne_of_lt

theorem containsEdgeL_setBlack [DecidableEq K] (t : RB_Node K) (a b : K) :
    containsEdgeL t.setBlack a b = containsEdgeL t a b := by
  cases t <;> rfl

theorem containsEdgeR_setBlack [DecidableEq K] (t : RB_Node K) (a b : K) :
    containsEdgeR t.setBlack a b = containsEdgeR t a b := by
  cases t <;> rfl

theorem containsEdgeL_left [DecidableEq K] {l : RB_Node K} {a b : K}
    (c : RB_Color) (v : K) (r : RB_Node K) (h : containsEdgeL l a b = true) :
    containsEdgeL (.node c l v r) a b = true := by
  simp [containsEdgeL, h]

theorem containsEdgeL_right' [DecidableEq K] {r : RB_Node K} {a b : K}
    (c : RB_Color) (l : RB_Node K) (v : K) (h : containsEdgeL r a b = true) :
    containsEdgeL (.node c l v r) a b = true := by
  simp [containsEdgeL, h]

theorem containsEdgeR_left [DecidableEq K] {l : RB_Node K} {a b : K}
    (c : RB_Color) (v : K) (r : RB_Node K) (h : containsEdgeR l a b = true) :
    containsEdgeR (.node c l v r) a b = true := by
  simp [containsEdgeR, h]

theorem containsEdgeR_right [DecidableEq K] {r : RB_Node K} {a b : K}
    (c : RB_Color) (l : RB_Node K) (v : K) (h : containsEdgeR r a b = true) :
    containsEdgeR (.node c l v r) a b = true := by
  simp [containsEdgeR, h]

theorem containsEdgeL_fill [DecidableEq K] :
    ∀ (p : Path K) {t : RB_Node K} {a b : K},
      containsEdgeL t a b = true → containsEdgeL (p.fill t) a b = true
  | .root, t, a, b, h => h
  | .left c pp v sib, t, a, b, h =>
    containsEdgeL_fill pp (containsEdgeL_left c v sib h)
  | .right c sib v pp, t, a, b, h =>
    containsEdgeL_fill pp (containsEdgeL_right' c sib v h)

theorem containsEdgeR_fill [DecidableEq K] :
    ∀ (p : Path K) {t : RB_Node K} {a b : K},
      containsEdgeR t a b = true → containsEdgeR (p.fill t) a b = true
  | .root, t, a, b, h => h
  | .left c pp v sib, t, a, b, h =>
    containsEdgeR_fill pp (containsEdgeR_left c v sib h)
  | .right c sib v pp, t, a, b, h =>
    containsEdgeR_fill pp (containsEdgeR_right c sib v h)

theorem fixup_keepL [DecidableEq K] :
    ∀ (p : Path K) (z : RB_Node K) (a b : K), p.AllLeft →
      containsEdgeL z a b = true → containsEdgeL (rb_insert_fixup z p) a b = true
  | .root, z, a, b, _, h => by
    rw [rb_insert_fixup, containsEdgeL_setBlack]
    exact h
  | .left .black pp v pr, z, a, b, _, h => by
    rw [rb_insert_fixup, containsEdgeL_setBlack]
    exact containsEdgeL_fill pp (containsEdgeL_left _ _ _ h)
  | .right .black pl v pp, z, a, b, hal, h => nomatch hal
  | .left .red .root v pr, z, a, b, _, h => by
    rw [rb_insert_fixup, containsEdgeL_setBlack]
    exact containsEdgeL_left _ _ _ h
  | .left .red (.left gc gp gv (.node .red u1 uv u2)) v pr, z, a, b, hal, h => by
    rw [rb_insert_fixup]
    exact fixup_keepL gp _ a b hal
      (containsEdgeL_left _ _ _ (containsEdgeL_left _ _ _ h))
  | .left .red (.left gc gp gv .nil) v pr, z, a, b, hal, h => by
    rw [rb_insert_fixup]
    all_goals try (intro u1 uv u2 hh; simp at hh)
    rw [containsEdgeL_setBlack]
    exact containsEdgeL_fill gp (containsEdgeL_left _ _ _ h)
  | .left .red (.left gc gp gv (.node .black ul uk ur)) v pr, z, a, b, hal, h => by
    rw [rb_insert_fixup]
    all_goals try (intro u1 uv u2 hh; simp at hh)
    rw [containsEdgeL_setBlack]
    exact containsEdgeL_fill gp (containsEdgeL_left _ _ _ h)
  | .left .red (.right gc gl gv gp) v pr, z, a, b, hal, h => nomatch hal
  | .right .red pl v pp, z, a, b, hal, h => nomatch hal

theorem fixup_keepR [DecidableEq K] :
    ∀ (p : Path K) (z : RB_Node K) (a b : K), p.AllRight →
      containsEdgeR z a b = true → containsEdgeR (rb_insert_fixup z p) a b = true
  | .root, z, a, b, _, h => by
    rw [rb_insert_fixup, containsEdgeR_setBlack]
    exact h
  | .right .black pl v pp, z, a, b, _, h => by
    rw [rb_insert_fixup, containsEdgeR_setBlack]
    exact containsEdgeR_fill pp (containsEdgeR_right _ _ _ h)
  | .left .black pp v pr, z, a, b, hal, h => nomatch hal
  | .right .red pl v .root, z, a, b, _, h => by
    rw [rb_insert_fixup, containsEdgeR_setBlack]
    exact containsEdgeR_right _ _ _ h
  | .right .red pl v (.right gc (.node .red u1 uv u2) gv gp), z, a, b, hal, h => by
    rw [rb_insert_fixup]
    exact fixup_keepR gp _ a b hal
      (containsEdgeR_right _ _ _ (containsEdgeR_right _ _ _ h))
  | .right .red pl v (.right gc .nil gv gp), z, a, b, hal, h => by
    rw [rb_insert_fixup]
    all_goals try (intro u1 uv u2 hh; simp at hh)
    rw [containsEdgeR_setBlack]
    exact containsEdgeR_fill gp (containsEdgeR_right _ _ _ h)
  | .right .red pl v (.right gc (.node .black ul uk ur) gv gp), z, a, b, hal, h => by
    rw [rb_insert_fixup]
    all_goals try (intro u1 uv u2 hh; simp at hh)
    rw [containsEdgeR_setBlack]
    exact containsEdgeR_fill gp (containsEdgeR_right _ _ _ h)
  | .right .red pl v (.left gc gp gv gr), z, a, b, hal, h => nomatch hal
  | .left .red pp v pr, z, a, b, hal, h => nomatch hal

theorem fixup_edgeL [DecidableEq K] :
    ∀ (pp : Path K) (c : RB_Color) (v : K) (pr : RB_Node K) (zc : RB_Color)
      (zl : RB_Node K) (zk : K) (zr : RB_Node K),
      Path.AllLeft pp →
      containsEdgeL
        (rb_insert_fixup (.node zc zl zk zr) (.left c pp v pr)) v zk = true := by
  intro pp c v pr zc zl zk zr hal
  cases c with
  | black =>
    rw [rb_insert_fixup]
    rw [containsEdgeL_setBlack]
    refine containsEdgeL_fill pp ?_
    simp [containsEdgeL]
  | red =>
    cases pp with
    | root =>
      rw [rb_insert_fixup]
      simp [RB_Node.setBlack, containsEdgeL]
    | left gc gp gv gr =>
      cases gr with
      | node grc grl grk grr =>
        cases grc with
        | red =>
          rw [rb_insert_fixup]
          refine fixup_keepL gp _ v zk hal ?_
          refine containsEdgeL_left _ _ _ ?_
          simp [containsEdgeL]
        | black =>
          rw [rb_insert_fixup]
          all_goals try (intro u1 uv u2 hh; simp at hh)
          rw [containsEdgeL_setBlack]
          refine containsEdgeL_fill gp ?_
          simp [containsEdgeL]
      | nil =>
        rw [rb_insert_fixup]
        all_goals try (intro u1 uv u2 hh; simp at hh)
        rw [containsEdgeL_setBlack]
        refine containsEdgeL_fill gp ?_
        simp [containsEdgeL]
    | right gc gl gv gp => exact absurd hal (by simp [Path.AllLeft])

theorem fixup_edgeR [DecidableEq K] :
    ∀ (pp : Path K) (c : RB_Color) (v : K) (pl : RB_Node K) (zc : RB_Color)
      (zl : RB_Node K) (zk : K) (zr : RB_Node K),
      Path.AllRight pp →
      containsEdgeR
        (rb_insert_fixup (.node zc zl zk zr) (.right c pl v pp)) v zk = true := by
  intro pp c v pl zc zl zk zr hal
  cases c with
  | black =>
    rw [rb_insert_fixup]
    rw [containsEdgeR_setBlack]
    refine containsEdgeR_fill pp ?_
    simp [containsEdgeR]
  | red =>
    cases pp with
    | root =>
      rw [rb_insert_fixup]
      simp [RB_Node.setBlack, containsEdgeR]
    | right gc gl gv gp =>
      cases gl with
      | node glc gll glk glr =>
        cases glc with
        | red =>
          rw [rb_insert_fixup]
          refine fixup_keepR gp _ v zk hal ?_
          refine containsEdgeR_right _ _ _ ?_
          simp [containsEdgeR]
        | black =>
          rw [rb_insert_fixup]
          all_goals try (intro u1 uv u2 hh; simp at hh)
          rw [containsEdgeR_setBlack]
          refine containsEdgeR_fill gp ?_
          simp [containsEdgeR]
      | nil =>
        rw [rb_insert_fixup]
        all_goals try (intro u1 uv u2 hh; simp at hh)
        rw [containsEdgeR_setBlack]
        refine containsEdgeR_fill gp ?_
        simp [containsEdgeR]
    | left gc gp gv gr => exact absurd hal (by simp [Path.AllRight])

theorem head?_append_left {α : Type _} {l1 l2 : List α} (h : l1 ≠ []) :
    (l1 ++ l2).head? = l1.head? := by
  cases l1 with
  | nil => cases h rfl
  | cons a l => rfl

theorem getLast?_cons_cons {α : Type _} (a b : α) (l : List α) :
    (a :: b :: l).getLast? = (b :: l).getLast? := by
  simp [List.getLast?]

theorem getLast?_append_right {α : Type _} :
    ∀ (l1 : List α) {l2 : List α}, l2 ≠ [] → (l1 ++ l2).getLast? = l2.getLast?
  | [], l2, _ => rfl
  | a :: l1, l2, h => by
    rw [List.cons_append]
    have hrec := getLast?_append_right l1 h
    cases hh : l1 ++ l2 with
    | nil =>
      rcases List.append_eq_nil.1 hh with ⟨rfl, rfl⟩
      cases h rfl
    | cons b tl =>
      rw [hh] at hrec
      rw [getLast?_cons_cons, hrec]

theorem mem_of_edgeL [DecidableEq K] :
    ∀ {t : RB_Node K} {a b : K}, containsEdgeL t a b = true → a ∈ t.toList := by
  intro t
  induction t with
  | nil => intro a b h; simp [containsEdgeL] at h
  | node c l v r ihl ihr =>
    intro a b h
    simp only [containsEdgeL, Bool.or_eq_true, Bool.and_eq_true, decide_eq_true_eq] at h
    simp only [RB_Node.toList, List.mem_append, List.mem_cons]
    rcases h with (⟨rfl, _⟩ | h) | h
    · exact Or.inr (Or.inl rfl)
    · exact Or.inl (ihl h)
    · exact Or.inr (Or.inr (ihr h))

theorem mem_of_edgeR [DecidableEq K] :
    ∀ {t : RB_Node K} {a b : K}, containsEdgeR t a b = true → a ∈ t.toList := by
  intro t
  induction t with
  | nil => intro a b h; simp [containsEdgeR] at h
  | node c l v r ihl ihr =>
    intro a b h
    simp only [containsEdgeR, Bool.or_eq_true, Bool.and_eq_true, decide_eq_true_eq] at h
    simp only [RB_Node.toList, List.mem_append, List.mem_cons]
    rcases h with (⟨rfl, _⟩ | h) | h
    · exact Or.inr (Or.inl rfl)
    · exact Or.inl (ihl h)
    · exact Or.inr (Or.inr (ihr h))

theorem lookupNode_eq_none [DecidableEq K] :
    ∀ {t : RB_Node K} {a : K}, a ∉ t.toList → lookupNode t a = none := by
  intro t
  induction t with
  | nil => intro a _; rfl
  | node c l v r ihl ihr =>
    intro a h
    simp only [RB_Node.toList, List.mem_append, List.mem_cons, not_or] at h
    rw [lookupNode, if_neg (fun hv => h.2.1 hv.symm), ihl h.1, ihr h.2.2]

theorem nodup_parts {l r : List K} {v : K}
    (h : (l ++ v :: r).Nodup) :
    l.Nodup ∧ r.Nodup ∧ v ∉ l ∧ v ∉ r ∧ ∀ x ∈ l, x ∉ v :: r := by
  rw [List.nodup_append] at h
  obtain ⟨hl, hvr, hdisj⟩ := h
  rw [List.nodup_cons] at hvr
  exact ⟨hl, hvr.2, fun hv => hdisj hv (List.mem_cons_self v r), hvr.1,
    fun x hx => hdisj hx⟩

theorem lookupNode_edgeL [DecidableEq K] :
    ∀ {t : RB_Node K} {a b : K}, t.toList.Nodup → containsEdgeL t a b = true →
      ∃ c cl ll lr r, lookupNode t a = some (.node c (.node cl ll b lr) a r) := by
  intro t
  induction t with
  | nil => intro a b _ h; simp [containsEdgeL] at h
  | node c l v r ihl ihr =>
    intro a b hnd h
    obtain ⟨hndl, hndr, hvl, hvr, hdisj⟩ := nodup_parts (by simpa [RB_Node.toList] using hnd)
    simp only [containsEdgeL, Bool.or_eq_true, Bool.and_eq_true, decide_eq_true_eq] at h
    rcases h with (⟨rfl, hl⟩ | h) | h
    · cases l with
      | nil => simp at hl
      | node cl ll lk lr =>
        simp only [decide_eq_true_eq] at hl
        subst hl
        exact ⟨c, cl, ll, lr, r, by rw [lookupNode, if_pos rfl]⟩
    · have hal : a ∈ l.toList := mem_of_edgeL h
      have hva : v ≠ a := fun hv => hvl (hv ▸ hal)
      obtain ⟨c', cl', ll', lr', r', heq⟩ := ihl hndl h
      exact ⟨c', cl', ll', lr', r', by rw [lookupNode, if_neg hva, heq]⟩
    · have hal : a ∈ r.toList := mem_of_edgeL h
      have hva : v ≠ a := fun hv => hvr (hv ▸ hal)
      have hnl : a ∉ l.toList := fun hx => (hdisj a hx) (List.mem_cons_of_mem v hal)
      obtain ⟨c', cl', ll', lr', r', heq⟩ := ihr hndr h
      exact ⟨c', cl', ll', lr', r',
        by rw [lookupNode, if_neg hva, lookupNode_eq_none hnl, heq]⟩

theorem lookupNode_edgeR [DecidableEq K] :
    ∀ {t : RB_Node K} {a b : K}, t.toList.Nodup → containsEdgeR t a b = true →
      ∃ c l cr rl rr, lookupNode t a = some (.node c l a (.node cr rl b rr)) := by
  intro t
  induction t with
  | nil => intro a b _ h; simp [containsEdgeR] at h
  | node c l v r ihl ihr =>
    intro a b hnd h
    obtain ⟨hndl, hndr, hvl, hvr, hdisj⟩ := nodup_parts (by simpa [RB_Node.toList] using hnd)
    simp only [containsEdgeR, Bool.or_eq_true, Bool.and_eq_true, decide_eq_true_eq] at h
    rcases h with (⟨rfl, hr⟩ | h) | h
    · cases r with
      | nil => simp at hr
      | node cr rl rk rr =>
        simp only [decide_eq_true_eq] at hr
        subst hr
        exact ⟨c, l, cr, rl, rr, by rw [lookupNode, if_pos rfl]⟩
    · have hal : a ∈ l.toList := mem_of_edgeR h
      have hva : v ≠ a := fun hv => hvl (hv ▸ hal)
      obtain ⟨c', l', cr', rl', rr', heq⟩ := ihl hndl h
      exact ⟨c', l', cr', rl', rr', by rw [lookupNode, if_neg hva, heq]⟩
    · have hal : a ∈ r.toList := mem_of_edgeR h
      have hva : v ≠ a := fun hv => hvr (hv ▸ hal)
      have hnl : a ∉ l.toList := fun hx => (hdisj a hx) (List.mem_cons_of_mem v hal)
      obtain ⟨c', l', cr', rl', rr', heq⟩ := ihr hndr h
      exact ⟨c', l', cr', rl', rr',
        by rw [lookupNode, if_neg hva, lookupNode_eq_none hnl, heq]⟩

theorem derefLeft_of_edge [DecidableEq K] {t : RB_Node K} {a b : K}
    (hnd : t.toList.Nodup) (h : containsEdgeL t a b = true) :
    derefLeft t (.node a) = .node b := by
  obtain ⟨c, cl, ll, lr, r, heq⟩ := lookupNode_edgeL hnd h
  rw [derefLeft, heq]
  rfl

theorem derefRight_of_edge [DecidableEq K] {t : RB_Node K} {a b : K}
    (hnd : t.toList.Nodup) (h : containsEdgeR t a b = true) :
    derefRight t (.node a) = .node b := by
  obtain ⟨c, l, cr, rl, rr, heq⟩ := lookupNode_edgeR hnd h
  rw [derefRight, heq]
  rfl

theorem head?_mem_self {α : Type _} {l : List α} {m : α} (h : l.head? = some m) :
    m ∈ l := by
  cases l with
  | nil => simp at h
  | cons a tl =>
    simp only [List.head?_cons, Option.some_inj] at h
    rw [← h]
    exact List.mem_cons_self a tl

theorem getLast?_mem_self {α : Type _} :
    ∀ {l : List α} {m : α}, l.getLast? = some m → m ∈ l
  | [], m, h => by simp at h
  | [a], m, h => by
    simp only [List.getLast?_singleton, Option.some_inj] at h
    rw [← h]
    exact List.mem_singleton_self a
  | a :: b :: tl, m, h => by
    rw [getLast?_cons_cons] at h
    exact List.mem_cons_of_mem a (getLast?_mem_self h)

theorem lookup_min [LinearOrder K] :
    ∀ {t : RB_Node K} {m : K}, OrderedP t → t.toList.head? = some m →
      ∃ c r, lookupNode t m = some (.node c .nil m r) := by
  intro t
  induction t with
  | nil => intro m _ h; simp [RB_Node.toList] at h
  | node c l v r ihl ihr =>
    intro m ho hh
    obtain ⟨hlv, hvr, hol, hor⟩ := ho
    by_cases hl : l = RB_Node.nil
    · subst hl
      simp only [RB_Node.toList, List.nil_append, List.head?_cons, Option.some_inj] at hh
      subst hh
      exact ⟨c, r, by rw [lookupNode, if_pos rfl]⟩
    · have hlne : l.toList ≠ [] := fun hc => hl ((toList_eq_nil_iff l).1 hc)
      rw [RB_Node.toList, head?_append_left hlne] at hh
      have hm : m ∈ l.toList := head?_mem_self hh
      have hmv : m < v := (all_iff l).1 hlv m hm
      obtain ⟨c', r', heq⟩ := ihl hol hh
      exact ⟨c', r', by rw [lookupNode, if_neg (ne_of_gt hmv), heq]⟩

theorem lookup_max [LinearOrder K] :
    ∀ {t : RB_Node K} {m : K}, OrderedP t → t.toList.getLast? = some m →
      ∃ c l, lookupNode t m = some (.node c l m .nil) := by
  intro t
  induction t with
  | nil => intro m _ h; simp [RB_Node.toList] at h
  | node c l v r ihl ihr =>
    intro m ho hh
    obtain ⟨hlv, hvr, hol, hor⟩ := ho
    by_cases hr : r = RB_Node.nil
    · subst hr
      rw [RB_Node.toList, getLast?_append_right l.toList (by simp)] at hh
      simp only [RB_Node.toList, List.getLast?_singleton, Option.some_inj] at hh
      subst hh
      exact ⟨c, l, by rw [lookupNode, if_pos rfl]⟩
    · have hrne : r.toList ≠ [] := fun hc => hr ((toList_eq_nil_iff r).1 hc)
      have hh' : r.toList.getLast? = some m := by
        rw [RB_Node.toList, getLast?_append_right l.toList (by simp)] at hh
        cases hcl : r.toList with
        | nil => exact absurd hcl hrne
        | cons a tl =>
          rw [hcl] at hh
          rw [getLast?_cons_cons] at hh
          exact hh
      have hm : m ∈ r.toList := getLast?_mem_self hh'
      have hmv : v < m := (all_iff r).1 hvr m hm
      have hml : m ∉ l.toList := fun hx =>
        absurd ((all_iff l).1 hlv m hx) (not_lt.2 hmv.le)
      obtain ⟨c', l', heq⟩ := ihr hor hh'
      exact ⟨c', l', by
        rw [lookupNode, if_neg (ne_of_lt hmv), lookupNode_eq_none hml, heq]⟩

theorem derefLeft_min [LinearOrder K] {t : RB_Node K} {m : K}
    (ho : OrderedP t) (hh : t.toList.head? = some m) :
    derefLeft t (.node m) = .null := by
  obtain ⟨c, r, heq⟩ := lookup_min ho hh
  rw [derefLeft, heq]
  rfl

theorem derefRight_max [LinearOrder K] {t : RB_Node K} {m : K}
    (ho : OrderedP t) (hh : t.toList.getLast? = some m) :
    derefRight t (.node m) = .null := by
  obtain ⟨c, l, heq⟩ := lookup_max ho hh
  rw [derefRight, heq]
  rfl

theorem find_v2_min [LinearOrder K] :
    ∀ (t : RB_Node K) (k : K) (p : Path K),
      OrderedP t → (∀ x ∈ t.toList, k < x) → t ≠ .nil →
      ∃ c' pp m r', find_v2 t k p = (.nil, .left c' pp m r') ∧
        t.toList.head? = some m ∧ (p.AllLeft → Path.AllLeft (.left c' pp m r')) := by
  intro t
  induction t with
  | nil => intro k p _ _ h; cases h rfl
  | node c l v r ihl ihr =>
    intro k p ho hlt _
    obtain ⟨hlv, hvr, hol, hor⟩ := ho
    have hkv : k < v := hlt v (by simp [RB_Node.toList])
    by_cases hl : l = RB_Node.nil
    · subst hl
      refine ⟨c, p, v, r, ?_, ?_, ?_⟩
      · rw [find_v2, if_pos hkv, find_v2]
      · simp [RB_Node.toList]
      · intro hp; exact hp
    · have hlne : l.toList ≠ [] := fun hc => hl ((toList_eq_nil_iff l).1 hc)
      have hlt' : ∀ x ∈ l.toList, k < x := fun x hx =>
        hlt x (by simp [RB_Node.toList, hx])
      obtain ⟨c', pp, m, r', heq, hhead, hal⟩ := ihl k (.left c p v r) hol hlt' hl
      refine ⟨c', pp, m, r', ?_, ?_, ?_⟩
      · rw [find_v2, if_pos hkv, heq]
      · rw [RB_Node.toList, head?_append_left hlne, hhead]
      · intro hp
        exact hal hp

theorem find_v2_max [LinearOrder K] :
    ∀ (t : RB_Node K) (k : K) (p : Path K),
      OrderedP t → (∀ x ∈ t.toList, x < k) → t ≠ .nil →
      ∃ c' l' m pp, find_v2 t k p = (.nil, .right c' l' m pp) ∧
        t.toList.getLast? = some m ∧ (p.AllRight → Path.AllRight (.right c' l' m pp)) := by
  intro t
  induction t with
  | nil => intro k p _ _ h; cases h rfl
  | node c l v r ihl ihr =>
    intro k p ho hlt _
    obtain ⟨hlv, hvr, hol, hor⟩ := ho
    have hkv : v < k := hlt v (by simp [RB_Node.toList])
    by_cases hr : r = RB_Node.nil
    · subst hr
      refine ⟨c, l, v, p, ?_, ?_, ?_⟩
      · rw [find_v2, if_neg (not_lt.2 hkv.le), if_pos hkv, find_v2]
      · rw [RB_Node.toList, getLast?_append_right l.toList (by simp)]
        simp [RB_Node.toList]
      · intro hp; exact hp
    · have hrne : r.toList ≠ [] := fun hc => hr ((toList_eq_nil_iff r).1 hc)
      have hlt' : ∀ x ∈ r.toList, x < k := fun x hx =>
        hlt x (by simp [RB_Node.toList, hx])
      obtain ⟨c', l', m, pp, heq, hlast, hal⟩ := ihr k (.right c l v p) hor hlt' hr
      refine ⟨c', l', m, pp, ?_, ?_, ?_⟩
      · rw [find_v2, if_neg (not_lt.2 hkv.le), if_pos hkv, heq]
      · rw [RB_Node.toList, getLast?_append_right l.toList (by simp), ← hlast]
        cases hcl : r.toList with
        | nil => exact absurd hcl hrne
        | cons a tl => rw [getLast?_cons_cons]
      · intro hp
        exact hal hp

theorem sorted_head_le [LinearOrder K] {l : List K} {m : K}
    (hp : List.Pairwise (· < ·) l) (hh : l.head? = some m) :
    ∀ x ∈ l, m ≤ x := by
  cases l with
  | nil => simp at hh
  | cons a tl =>
    simp only [List.head?_cons, Option.some_inj] at hh
    subst hh
    intro x hx
    rcases List.mem_cons.1 hx with rfl | hx
    · exact le_refl x
    · exact (List.pairwise_cons.1 hp).1 x hx |>.le

theorem sorted_le_last [LinearOrder K] :
    ∀ {l : List K} {m : K}, List.Pairwise (· < ·) l → l.getLast? = some m →
      ∀ x ∈ l, x ≤ m
  | [], m, _, hh => by simp at hh
  | [a], m, _, hh => by
    simp only [List.getLast?_singleton, Option.some_inj] at hh
    subst hh
    intro x hx
    rcases List.mem_singleton.1 hx with rfl
    exact le_refl x
  | a :: b :: tl, m, hp, hh => by
    rw [getLast?_cons_cons] at hh
    have ih := sorted_le_last (List.pairwise_cons.1 hp).2 hh
    intro x hx
    rcases List.mem_cons.1 hx with rfl | hx
    · have hm : m ∈ b :: tl := getLast?_mem_self hh
      exact ((List.pairwise_cons.1 hp).1 m hm).le
    · exact ih x hx

theorem pairwise_insert_middle [LinearOrder K] {A B : List K} {k : K}
    (hp : List.Pairwise (· < ·) (A ++ B))
    (hA : ∀ a ∈ A, a < k) (hB : ∀ b ∈ B, k < b) :
    List.Pairwise (· < ·) (A ++ k :: B) := by
  rw [List.pairwise_append] at hp
  obtain ⟨pA, pB, cross⟩ := hp
  rw [List.pairwise_append]
  refine ⟨pA, List.pairwise_cons.2 ⟨hB, pB⟩, ?_⟩
  intro a ha b hb
  rcases List.mem_cons.1 hb with rfl | hb
  · exact hA a ha
  · exact cross a ha b hb

theorem stinv_empty [LinearOrder K] : StInv (emptyState : TreeState K) := by
  refine ⟨trivial, ⟨0, .nil⟩, rfl, rfl, rfl, rfl⟩

theorem insert_found [LinearOrder K] (t : TreeState K) (k : K)
    (h0 : OrderedP t.root) (hsz : t.size ≠ 0) (hk : k ∈ t.root.toList) :
    insert t k = (t, .node k, false) := by
  rw [insert, if_neg hsz]
  cases hfv : find_v2 t.root k .root with
  | mk t' p =>
    cases t' with
    | nil =>
      exfalso
      have hfill := find_v2_fill t.root k .root hfv
      have hsplit : t.root.toList = p.listL ++ p.listR := by
        have := fill_toList p RB_Node.nil
        rw [hfill] at this
        simpa [Path.fill, RB_Node.toList] using this
      obtain ⟨_, hL, hR⟩ := find_v2_bounds t.root k .root h0
        (by simp [Path.listL]) (by simp [Path.listR]) hfv
      rw [hsplit] at hk
      rcases List.mem_append.1 hk with hx | hx
      · exact absurd (hL k hx) (lt_irrefl k)
      · exact absurd (hR k hx) (lt_irrefl k)
    | node c' l' v' r' =>
      have hv : v' = k := find_v2_found t.root k .root hfv
      subst hv
      rfl

theorem insert_hint_unfold [LinearOrder K] (t : TreeState K) (p : Path K) (k : K) :
    insert_hint_unique t p k =
      ({ nodes := t.nodes ++ [(k, RB_Color.red)], hasEnd := t.hasEnd,
         root := rb_insert_fixup (.node .red .nil k .nil) p,
         leftmost :=
           if derefLeft (rb_insert_fixup (.node .red .nil k .nil) p) t.leftmost
              = NPtr.node k then NPtr.node k else t.leftmost,
         rightmost :=
           if derefLeft (rb_insert_fixup (.node .red .nil k .nil) p) t.leftmost
              = NPtr.node k then t.rightmost
           else if derefRight (rb_insert_fixup (.node .red .nil k .nil) p) t.rightmost
              = NPtr.node k then NPtr.node k else t.rightmost,
         size := t.size + 1 }, NPtr.node k) := by
  rw [insert_hint_unique]
  by_cases h1 : derefLeft (rb_insert_fixup (.node .red .nil k .nil) p) t.leftmost
      = NPtr.node k
  · simp [insert_node, h1]
  · by_cases h2 : derefRight (rb_insert_fixup (.node .red .nil k .nil) p) t.rightmost
        = NPtr.node k
    · simp [insert_node, h1, h2]
    · simp [insert_node, h1, h2]

theorem insert_new [LinearOrder K] (t : TreeState K) (k : K) (h : StInv t)
    (hk : k ∉ t.root.toList) (hsz : t.size ≠ 0) :
    StInv (insert t k).1 ∧ (insert t k).2.2 = true ∧
      ∃ A B, t.root.toList = A ++ B ∧ (insert t k).1.root.toList = A ++ k :: B := by
  obtain ⟨hord, ⟨nb, hbal⟩, hszf, hsend, hlm, hrm⟩ := h
  have hpw : List.Pairwise (· < ·) t.root.toList := (orderedP_iff_pairwise _).1 hord
  have hne : t.root.toList ≠ [] := by
    intro hc
    rw [hc] at hszf
    exact hsz (by simpa using hszf)
  cases hfv : find_v2 t.root k .root with
  | mk t' p =>
    cases t' with
    | node c' l' v' r' =>
      exfalso
      have hv : v' = k := find_v2_found t.root k .root hfv
      have hfill := find_v2_fill t.root k .root hfv
      have hlist := fill_toList p (RB_Node.node c' l' v' r')
      rw [hfill] at hlist
      simp only [Path.fill] at hlist
      apply hk
      rw [← hv, hlist]
      simp [RB_Node.toList]
    | nil =>
      have hfill := find_v2_fill t.root k .root hfv
      have hsplit : t.root.toList = p.listL ++ p.listR := by
        have := fill_toList p RB_Node.nil
        rw [hfill] at this
        simpa [Path.fill, RB_Node.toList] using this
      obtain ⟨_, hL, hR⟩ := find_v2_bounds t.root k .root hord
        (by simp [Path.listL]) (by simp [Path.listR]) hfv
      have hins : insert t k =
          ((insert_hint_unique t p k).1, (insert_hint_unique t p k).2, true) := by
        rw [insert, if_neg hsz, hfv]
      set newRoot := rb_insert_fixup (.node .red .nil k .nil) p with hnewRoot
      have hnewList : newRoot.toList = p.listL ++ k :: p.listR := by
        rw [hnewRoot, fixup_toList]
        simp [RB_Node.toList]
      have hnewPw : List.Pairwise (· < ·) newRoot.toList := by
        rw [hnewList]
        exact pairwise_insert_middle (hsplit ▸ hpw) hL hR
      have hnewOrd : OrderedP newRoot := (orderedP_iff_pairwise _).2 hnewPw
      have hnewNd : newRoot.toList.Nodup := pairwise_lt_nodup hnewPw
      have hnewBal : ∃ m, Balanced newRoot .black m := by
        obtain ⟨c2, n2, hbal2, hpb2⟩ :=
          find_v2_bal t.root k Path.root hbal Path.PathBal.root hfv
        cases hbal2
        exact fixup_bal p _ hpb2 (.red .nil .nil)
      rw [hins, insert_hint_unfold, ← hnewRoot]
      by_cases hmin : ∀ x ∈ t.root.toList, k < x
      · -- k becomes the new minimum: the fix-up keeps it the left child of the
        -- old minimum, so the pointer test fires and the cache moves to k
        obtain ⟨c1, pp, m, r1, heq, hhead, half⟩ :=
          find_v2_min t.root k .root hord hmin (fun hc => hne (by rw [hc]; rfl))
        rw [heq] at hfv
        have hp : p = .left c1 pp m r1 := by cases hfv; rfl
        have hallpp : pp.AllLeft := half trivial
        have hedge : containsEdgeL newRoot m k = true := by
          rw [hnewRoot, hp]
          exact fixup_edgeL pp c1 m r1 .red .nil k .nil hallpp
        have hderef : derefLeft newRoot (NPtr.node m) = NPtr.node k :=
          derefLeft_of_edge hnewNd hedge
        have hlm' : t.leftmost = NPtr.node m := by rw [hlm, hhead]
        have hLnil : p.listL = [] := by
          rw [List.eq_nil_iff_forall_not_mem]
          intro x hx
          have hx1 : x ∈ t.root.toList := by
            rw [hsplit]
            exact List.mem_append.2 (Or.inl hx)
          exact absurd (hL x hx) (not_lt.2 (hmin x hx1).le)
        have hRall : p.listR = t.root.toList := by
          rw [hsplit, hLnil, List.nil_append]
        rw [hlm', hderef, if_pos rfl]
        refine ⟨⟨hnewOrd, hnewBal, ?_, hsend, ?_, ?_⟩, rfl, ?_⟩
        · simp only [hnewList, hLnil, List.nil_append, List.length_cons, hRall]
          rw [hszf]
        · simp only [hnewList, hLnil, List.nil_append, List.head?_cons]
        · simp only [hnewList, hLnil, List.nil_append]
          have hlastkeep : (k :: p.listR).getLast? = p.listR.getLast? := by
            have hcons : k :: p.listR = [k] ++ p.listR := rfl
            rw [hcons, getLast?_append_right [k] (by rw [hRall]; exact hne)]
          rw [hlastkeep, hRall]
          exact hrm
        · exact ⟨[], t.root.toList, by simp [hsplit, hLnil],
            by simp [hnewList, hLnil, hRall]⟩
      · by_cases hmax : ∀ x ∈ t.root.toList, x < k
        · -- k becomes the new maximum
          obtain ⟨c1, l1, m, pp, heq, hlast, harf⟩ :=
            find_v2_max t.root k .root hord hmax (fun hc => hne (by rw [hc]; rfl))
          rw [heq] at hfv
          have hp : p = .right c1 l1 m pp := by cases hfv; rfl
          have hallpp : pp.AllRight := harf trivial
          have hedge : containsEdgeR newRoot m k = true := by
            rw [hnewRoot, hp]
            exact fixup_edgeR pp c1 m l1 .red .nil k .nil hallpp
          have hderef : derefRight newRoot (NPtr.node m) = NPtr.node k :=
            derefRight_of_edge hnewNd hedge
          have hrm' : t.rightmost = NPtr.node m := by rw [hrm, hlast]
          have hRnil : p.listR = [] := by
            rw [List.eq_nil_iff_forall_not_mem]
            intro x hx
            have hx1 : x ∈ t.root.toList := by
              rw [hsplit]
              exact List.mem_append.2 (Or.inr hx)
            exact absurd (hR x hx) (not_lt.2 (hmax x hx1).le)
          have hLall : p.listL = t.root.toList := by
            rw [hsplit, hRnil, List.append_nil]
          have hm0 : ∃ m0, t.root.toList.head? = some m0 := by
            cases hc : t.root.toList.head? with
            | none => exact absurd (List.head?_eq_none_iff.1 hc) hne
            | some a => exact ⟨a, rfl⟩
          obtain ⟨m0, hm0⟩ := hm0
          have hheadnew : newRoot.toList.head? = some m0 := by
            rw [hnewList, hLall, head?_append_left hne, hm0]
          have hderefL : derefLeft newRoot t.leftmost = NPtr.null := by
            rw [hlm, hm0]
            exact derefLeft_min hnewOrd hheadnew
          rw [hderefL, if_neg (by intro hc; cases hc)]
          rw [hrm', hderef, if_pos rfl]
          refine ⟨⟨hnewOrd, hnewBal, ?_, hsend, ?_, ?_⟩, rfl, ?_⟩
          · simp only [hnewList, hRnil, hLall]
            rw [hszf]
            simp
          · simp only [hnewList, hRnil, hLall]
            rw [hlm, head?_append_left hne]
          · simp only [hnewList, hRnil, hLall]
            rw [getLast?_append_right t.root.toList (by simp)]
            simp
          · exact ⟨t.root.toList, [], by simp [hsplit, hRnil],
              by simp [hnewList, hRnil, hLall]⟩
        · -- k lands strictly between the extremes: neither pointer test fires
          push_neg at hmin hmax
          obtain ⟨b0, hb0mem, hb0⟩ := hmin
          obtain ⟨a0, ha0mem, ha0⟩ := hmax
          have hb0' : b0 < k := lt_of_le_of_ne hb0 (fun hc => hk (hc ▸ hb0mem))
          have ha0' : k < a0 := lt_of_le_of_ne ha0 (fun hc => hk (hc.symm ▸ ha0mem))
          have hLne : p.listL ≠ [] := by
            intro hc
            rw [hsplit, hc, List.nil_append] at hb0mem
            exact absurd (hR b0 hb0mem) (not_lt.2 hb0'.le)
          have hRne : p.listR ≠ [] := by
            intro hc
            rw [hsplit, hc, List.append_nil] at ha0mem
            exact absurd (hL a0 ha0mem) (not_lt.2 ha0'.le)
          have hm0 : ∃ m0, t.root.toList.head? = some m0 := by
            cases hc : t.root.toList.head? with
            | none => exact absurd (List.head?_eq_none_iff.1 hc) hne
            | some a => exact ⟨a, rfl⟩
          obtain ⟨m0, hm0⟩ := hm0
          have hM0 : ∃ M0, t.root.toList.getLast? = some M0 := by
            cases hc : t.root.toList.getLast? with
            | none =>
              exfalso
              apply hne
              exact List.getLast?_eq_none_iff.1 hc
            | some a => exact ⟨a, rfl⟩
          obtain ⟨M0, hM0⟩ := hM0
          have hheadnew : newRoot.toList.head? = some m0 := by
            have h1 : t.root.toList.head? = p.listL.head? := by
              rw [hsplit, head?_append_left hLne]
            rw [hnewList, head?_append_left hLne, ← h1, hm0]
          have hlastnew : newRoot.toList.getLast? = some M0 := by
            rw [hnewList, getLast?_append_right p.listL (by simp)]
            have hcons : k :: p.listR = [k] ++ p.listR := rfl
            rw [hcons, getLast?_append_right [k] hRne,
              ← getLast?_append_right p.listL hRne, ← hsplit, hM0]
          have hderefL : derefLeft newRoot t.leftmost = NPtr.null := by
            rw [hlm, hm0]
            exact derefLeft_min hnewOrd hheadnew
          have hderefR : derefRight newRoot t.rightmost = NPtr.null := by
            rw [hrm, hM0]
            exact derefRight_max hnewOrd hlastnew
          rw [hderefL, hderefR]
          rw [if_neg (by intro hc; cases hc), if_neg (by intro hc; cases hc),
            if_neg (by intro hc; cases hc)]
          refine ⟨⟨hnewOrd, hnewBal, ?_, hsend, ?_, ?_⟩, rfl, ?_⟩
          · simp only [hnewList]
            rw [hszf, hsplit]
            simp only [List.length_append, List.length_cons]
            omega
          · rw [hheadnew, hlm, hm0]
          · rw [hlastnew, hrm, hM0]
          · exact ⟨p.listL, p.listR, hsplit, by simp [hnewList]⟩

theorem insert_empty [LinearOrder K] (t : TreeState K) (k : K) (h : StInv t)
    (hsz : t.size = 0) :
    StInv (insert t k).1 ∧ (insert t k).2.2 = true ∧
      (insert t k).1.root.toList = [k] ∧ t.root.toList = [] := by
  obtain ⟨hord, hbal, hszf, hsend, hlm, hrm⟩ := h
  have hnil : t.root.toList = [] := by
    rw [hsz] at hszf
    exact List.length_eq_zero.1 hszf.symm
  have hins : insert t k = ((insert_root t k).1, (insert_root t k).2, true) := by
    rw [insert, if_pos hsz]
  rw [hins]
  refine ⟨⟨?_, ?_, ?_, ?_, ?_, ?_⟩, rfl, ?_, hnil⟩
  · exact ⟨trivial, trivial, trivial, trivial⟩
  · exact ⟨1, .black .nil .nil⟩
  · simp [insert_root, insert_node, hsz, RB_Node.toList]
  · simpa [insert_root, insert_node] using hsend
  · simp [insert_root, insert_node, RB_Node.toList]
  · simp [insert_root, insert_node, RB_Node.toList]
  · simp [insert_root, insert_node, RB_Node.toList]

theorem insert_step [LinearOrder K] (t : TreeState K) (k : K) (h : StInv t) :
    StInv (insert t k).1 ∧
    (k ∈ t.root.toList → insert t k = (t, .node k, false)) ∧
    (∀ x, x ∈ (insert t k).1.root.toList ↔ x = k ∨ x ∈ t.root.toList) ∧
    (insert t k).1.root.toList.length
      = t.root.toList.length + (if k ∈ t.root.toList then 0 else 1) := by
  by_cases hsz : t.size = 0
  · obtain ⟨hst, _, hlist, hnil⟩ := insert_empty t k h hsz
    refine ⟨hst, ?_, ?_, ?_⟩
    · intro hk
      rw [hnil] at hk
      simp at hk
    · intro x
      rw [hlist, hnil]
      simp
    · rw [hlist, hnil]
      simp
  · by_cases hk : k ∈ t.root.toList
    · have heq := insert_found t k h.ord hsz hk
      rw [heq]
      exact ⟨h, fun _ => rfl, fun x => by simp; intro hx; rw [hx]; exact hk,
        by simp [hk]⟩
    · obtain ⟨hst, _, A, B, hAB, hlist⟩ := insert_new t k h hk hsz
      refine ⟨hst, fun hc => absurd hc hk, ?_, ?_⟩
      · intro x
        rw [hlist, hAB]
        simp [or_comm, or_assoc, or_left_comm]
      · have hk' : k ∉ A ++ B := hAB ▸ hk
        rw [hlist, hAB, if_neg hk']
        simp
        omega

theorem foldl_insert_stinv [LinearOrder K] :
    ∀ (ks : List K) (t : TreeState K), StInv t →
      StInv (ks.foldl (fun s k => (insert s k).1) t) ∧
      ∀ x, x ∈ (ks.foldl (fun s k => (insert s k).1) t).root.toList ↔
        x ∈ t.root.toList ∨ x ∈ ks
  | [], t, h => ⟨h, by simp⟩
  | k :: ks, t, h => by
    obtain ⟨hst, _, hmem, _⟩ := insert_step t k h
    obtain ⟨hst2, hmem2⟩ := foldl_insert_stinv ks (insert t k).1 hst
    rw [List.foldl_cons]
    refine ⟨hst2, ?_⟩
    intro x
    rw [hmem2 x, hmem x]
    simp [or_comm, or_assoc, or_left_comm]

theorem insertList_stinv [LinearOrder K] (ks : List K) :
    StInv (insertList ks) ∧
      ∀ x : K, x ∈ (insertList ks).root.toList ↔ x ∈ ks := by
  obtain ⟨h1, h2⟩ := foldl_insert_stinv ks emptyState stinv_empty
  refine ⟨h1, fun x => ?_⟩
  rw [insertList, h2 x]
  simp [emptyState, RB_Node.toList]

theorem insert_unique_eq [LinearOrder K] (t : TreeState K) (k : K) :
    insert_unique t k = (insert t k).1 := by
  rw [insert_unique, insert]
  by_cases hsz : t.size = 0
  · simp [hsz]
  · simp only [if_neg hsz]
    cases hfv : find_v2 t.root k .root with
    | mk t' p => cases t' <;> rfl

theorem insertRange_eq [LinearOrder K] :
    ∀ (ks : List K) (t : TreeState K),
      insertRange t ks = ks.foldl (fun s k => (insert s k).1) t
  | [], t => rfl
  | k :: ks, t => by
    rw [insertRange, List.foldl_cons, List.foldl_cons, insert_unique_eq]
    exact insertRange_eq ks (insert t k).1

theorem insertIList_eq [LinearOrder K] (ks : List K) (t : TreeState K) :
    insertIList t ks = ks.foldl (fun s k => (insert s k).1) t :=
  insertRange_eq ks t

theorem nodup_length_eq [DecidableEq K] {l1 l2 : List K}
    (h1 : l1.Nodup) (h2 : l2.Nodup) (hm : ∀ x, x ∈ l1 ↔ x ∈ l2) :
    l1.length = l2.length := by
  rw [← List.toFinset_card_of_nodup h1, ← List.toFinset_card_of_nodup h2]
  congr 1
  ext x
  simp only [List.mem_toFinset]
  exact hm x

theorem foldl_ops_stinv [LinearOrder K] :
    ∀ (ops : List (InsOp K)) (t : TreeState K), StInv t →
      StInv (ops.foldl applyOp t) ∧
      ∀ x, x ∈ (ops.foldl applyOp t).root.toList ↔
        x ∈ t.root.toList ∨ x ∈ opKeys ops
  | [], t, h => ⟨h, by simp [opKeys]⟩
  | op :: ops, t, h => by
    have hone : StInv (applyOp t op) ∧
        ∀ x, x ∈ (applyOp t op).root.toList ↔
          x ∈ t.root.toList ∨ x ∈ (match op with
            | InsOp.one k => [k] | InsOp.many ks => ks | InsOp.ilist ks => ks) := by
      cases op with
      | one k =>
        obtain ⟨hst, _, hmem, _⟩ := insert_step t k h
        exact ⟨hst, fun x => by rw [applyOp, hmem x]; simp [or_comm]⟩
      | many ks =>
        have := foldl_insert_stinv ks t h
        rw [applyOp, insertRange_eq]
        exact this
      | ilist ks =>
        have := foldl_insert_stinv ks t h
        rw [applyOp, insertIList_eq]
        exact this
    obtain ⟨hst2, hmem2⟩ := foldl_ops_stinv ops (applyOp t op) hone.1
    rw [List.foldl_cons]
    refine ⟨hst2, fun x => ?_⟩
    rw [hmem2 x, hone.2 x]
    cases op <;> simp [opKeys, or_comm, or_assoc, or_left_comm]

/-- Claim C1: for every sequence of single-key inserts starting from the empty
tree, the resulting tree satisfies the red-black invariants: BST order holds
everywhere, the root is black, no red node has a red parent, every downward
path from any node to an absent child crosses the same number of black nodes,
and the tree owns its sentinel whose left slot is the root (the root-parent /
sentinel linkage being representational in this embedding). -/
theorem claim_C1 [LinearOrder K] (ks : List K) :
    rbInvariantsHold (insertList ks : TreeState K) := by
  obtain ⟨h, _⟩ := insertList_stinv ks
  obtain ⟨hord, ⟨n, hbal⟩, _, hsend, _, _⟩ := h
  refine ⟨(orderedB_iff _).2 hord, balanced_rootBlackB hbal, balanced_noRedRedB hbal,
    ?_, hsend⟩
  rw [balanced_blackHB hbal]
  rfl

/-- Claim C5: inserting a key that is already stored returns the position of
the existing node paired with inserted == false and leaves the entire tree
state unchanged: the arena (no new node), the root structure (no rotation or
recoloring), both caches and the size keep their values. -/
theorem claim_C5 [LinearOrder K] (ks : List K) (k : K)
    (hk : k ∈ (insertList ks : TreeState K).root.toList) :
    insert (insertList ks) k = (insertList ks, .node k, false) := by
  obtain ⟨h, _⟩ := insertList_stinv ks
  obtain ⟨_, h2, _, _⟩ := insert_step (insertList ks) k h
  exact h2 hk

/-- Witness for C5 at a concrete input: after inserting 2, 1, 3, the key 1 is
stored, and re-inserting it returns the existing position with false and the
unchanged state. -/
theorem claim_C5_witness :
    1 ∈ (insertList [2, 1, 3] : TreeState Nat).root.toList ∧
    insert (insertList [2, 1, 3] : TreeState Nat) 1
      = (insertList [2, 1, 3], .node 1, false) :=
  ⟨by decide, claim_C5 [2, 1, 3] 1 (by decide)⟩

/-- Claim C8: over every sequence of single-key and bulk insert operations
starting from the empty tree, size() equals the number of distinct keys
offered so far (duplicates do not increment it), and empty() returns true
exactly when size() is zero. -/
theorem claim_C8 [LinearOrder K] (ops : List (InsOp K)) :
    (applyOps ops : TreeState K).size = (opKeys ops).dedup.length ∧
    (emptyB (applyOps ops : TreeState K) = true ↔ (applyOps ops).size = 0) := by
  obtain ⟨hst, hmem⟩ := foldl_ops_stinv ops emptyState stinv_empty
  constructor
  · rw [applyOps, hst.sz]
    refine nodup_length_eq ?_ (List.nodup_dedup _) ?_
    · exact pairwise_lt_nodup ((orderedP_iff_pairwise _).1 hst.ord)
    · intro x
      rw [List.mem_dedup]
      rw [hmem x]
      simp [emptyState, RB_Node.toList]
  · simp [emptyB]

/-- Claim C10: the bulk inserts insert(first, last) and insert(ilist) produce
exactly the same resulting tree state (same key set, structure, size, caches,
arena) as folding the single-key insert over the sequence in order and
discarding the returned pairs. -/
theorem claim_C10 [LinearOrder K] (t : TreeState K) (ks : List K) :
    insertRange t ks = ks.foldl (fun s k => (insert s k).1) t ∧
    insertIList t ks = ks.foldl (fun s k => (insert s k).1) t :=
  ⟨insertRange_eq ks t, insertIList_eq ks t⟩

/-- Claim C9: when node allocation fails during insert, the failure propagates
to the caller and the observed tree state is exactly the pre-call state (the
node is allocated before any link, cache or size field is touched); the
duplicate branch attempts no allocation and also leaves the state unchanged.
With a succeeding allocator the fallible insert agrees with insert. -/
theorem claim_C9 [LinearOrder K] (t : TreeState K) (k : K) :
    (insertE false t k = Except.error t ∨
      ∃ v, insertE false t k = Except.ok (t, NPtr.node v, false)) ∧
    insertE true t k = Except.ok (insert t k) := by
  constructor
  · rw [insertE]
    by_cases hsz : t.size = 0
    · left
      simp [hsz, insert_rootE, insert_nodeE]
    · simp only [if_neg hsz]
      cases hfv : find_v2 t.root k .root with
      | mk t' p =>
        cases t' with
        | nil =>
          left
          simp [insert_hint_uniqueE, insert_nodeE]
        | node c' l' v' r' => exact Or.inr ⟨v', rfl⟩
  · rw [insertE, insert]
    by_cases hsz : t.size = 0
    · simp only [if_pos hsz]
      rfl
    · simp only [if_neg hsz]
      cases hfv : find_v2 t.root k .root with
      | mk t' p =>
        cases t' with
        | nil => rfl
        | node c' l' v' r' => rfl

theorem leftmostFocus_spec :
    ∀ (t : RB_Node K) (p : Path K), t ≠ .nil →
      ∃ c v r p', leftmostFocus t p = (.node c .nil v r, p') ∧
        v :: r.toList ++ p'.listR = t.toList ++ p.listR
  | .nil, p, h => absurd rfl h
  | .node c .nil v r, p, _ =>
    ⟨c, v, r, p, rfl, by simp [RB_Node.toList]⟩
  | .node c (.node cl ll lv lr) v r, p, _ => by
    obtain ⟨c2, v2, r2, p2, heq, hlist⟩ :=
      leftmostFocus_spec (.node cl ll lv lr) (.left c p v r) (by intro hc; cases hc)
    refine ⟨c2, v2, r2, p2, ?_, ?_⟩
    · rw [leftmostFocus, heq]
    · rw [hlist]
      simp [RB_Node.toList, Path.listR, List.append_assoc]

theorem upSucc_spec :
    ∀ (p : Path K) (t : RB_Node K),
      (upSucc t p = none → p.listR = []) ∧
      (∀ t' p', upSucc t p = some (t', p') →
        ∃ c l v r, t' = .node c l v r ∧ v :: r.toList ++ p'.listR = p.listR)
  | .root, t => ⟨fun _ => rfl, fun t' p' h => by simp [upSucc] at h⟩
  | .left c pp v pr, t => by
    constructor
    · intro h
      simp [upSucc] at h
    · intro t' p' h
      rw [upSucc] at h
      cases h with
      | refl => exact ⟨c, t, v, pr, rfl, rfl⟩
  | .right c pl v pp, t => by
    have ih := upSucc_spec pp (.node c pl v t)
    constructor
    · intro h
      rw [upSucc] at h
      exact ih.1 h
    · intro t' p' h
      rw [upSucc] at h
      obtain ⟨c2, l2, v2, r2, ht, hl⟩ := ih.2 t' p' h
      exact ⟨c2, l2, v2, r2, ht, hl⟩

theorem walkFrom_spec :
    ∀ (fuel : Nat) (c : RB_Color) (l : RB_Node K) (v : K) (r : RB_Node K) (p : Path K),
      fuel = r.toList.length + p.listR.length →
      walkFrom (fuel + 1) (.node c l v r, p) = v :: r.toList ++ p.listR := by
  intro fuel
  induction fuel with
  | zero =>
    intro c l v r p hf
    have hr : r.toList = [] := List.length_eq_zero.1 (by omega)
    have hp : p.listR = [] := List.length_eq_zero.1 (by omega)
    have hrn : r = .nil := (toList_eq_nil_iff r).1 hr
    subst hrn
    rw [walkFrom]
    have hup : upSucc (.node c l v .nil) p = none := by
      cases hu : upSucc (.node c l v .nil) p with
      | none => rfl
      | some tp =>
        obtain ⟨c2, l2, v2, r2, _, hl⟩ := (upSucc_spec p _).2 tp.1 tp.2 (by rw [hu])
        rw [hp] at hl
        simp at hl
    have hsucc : succFocus (.node c l v .nil, p) = upSucc (.node c l v .nil) p := rfl
    rw [hsucc, hup]
    simp [RB_Node.toList, hp]
  | succ n ih =>
    intro c l v r p hf
    rw [walkFrom]
    cases r with
    | node rc rl rv rr =>
      have hsucc : succFocus (.node c l v (.node rc rl rv rr), p)
          = some (leftmostFocus (.node rc rl rv rr) (.right c l v p)) := rfl
      obtain ⟨c2, v2, r2, p2, heq, hlist⟩ :=
        leftmostFocus_spec (.node rc rl rv rr) (.right c l v p) (by intro hc; cases hc)
      have hlen : n = r2.toList.length + p2.listR.length := by
        have hc := congrArg List.length hlist
        simp only [List.length_cons, List.length_append, Path.listR] at hc hf
        omega
      rw [hsucc, heq]
      simp only
      rw [ih c2 .nil v2 r2 p2 hlen]
      rw [hlist]
      simp [Path.listR]
    | nil =>
      have hsucc : succFocus (.node c l v .nil, p) = upSucc (.node c l v .nil) p := rfl
      cases hu : upSucc (.node c l v .nil) p with
      | none =>
        have hp : p.listR = [] := (upSucc_spec p _).1 hu
        rw [hsucc, hu]
        simp [RB_Node.toList, hp]
      | some tp =>
        obtain ⟨c2, l2, v2, r2, ht, hl⟩ := (upSucc_spec p _).2 tp.1 tp.2 (by rw [hu])
        have hlen : n = r2.toList.length + tp.2.listR.length := by
          have := congrArg List.length hl
          simp only [List.length_cons, List.length_append] at this
          have hf2 := hf
          simp only [RB_Node.toList, List.length_nil] at hf2
          omega
        rw [hsucc, hu]
        have htp : tp = (tp.1, tp.2) := rfl
        rw [htp, ht]
        simp only
        rw [ih c2 l2 v2 r2 tp.2 hlen]
        rw [hl]
        simp [RB_Node.toList]

theorem find_v2_present [LinearOrder K] :
    ∀ (t : RB_Node K) (k : K) (p : Path K), OrderedP t → k ∈ t.toList →
      ∃ c l r p', find_v2 t k p = (.node c l k r, p')
  | .nil, k, p, _, hk => by simp [RB_Node.toList] at hk
  | .node c l v r, k, p, ho, hk => by
    obtain ⟨hlv, hvr, hol, hor⟩ := ho
    rcases lt_trichotomy k v with hlt | heq | hgt
    · have hkl : k ∈ l.toList := by
        simp only [RB_Node.toList, List.mem_append, List.mem_cons] at hk
        rcases hk with h | h | h
        · exact h
        · exact absurd h (ne_of_lt hlt)
        · exact absurd ((all_iff r).1 hvr k h) (not_lt.2 hlt.le)
      obtain ⟨c2, l2, r2, p2, heq⟩ := find_v2_present l k (.left c p v r) hol hkl
      exact ⟨c2, l2, r2, p2, by rw [find_v2, if_pos hlt, heq]⟩
    · subst heq
      exact ⟨c, l, r, p, by rw [find_v2, if_neg (lt_irrefl k), if_neg (lt_irrefl k)]⟩
    · have hkr : k ∈ r.toList := by
        simp only [RB_Node.toList, List.mem_append, List.mem_cons] at hk
        rcases hk with h | h | h
        · exact absurd ((all_iff l).1 hlv k h) (not_lt.2 hgt.le)
        · exact absurd h.symm (ne_of_lt hgt)
        · exact h
      obtain ⟨c2, l2, r2, p2, heq⟩ := find_v2_present r k (.right c l v p) hor hkr
      exact ⟨c2, l2, r2, p2, by rw [find_v2, if_neg (not_lt.2 hgt.le), if_pos hgt, heq]⟩

theorem traversal_eq [LinearOrder K] (t : TreeState K) (h : StInv t) :
    traversal t = t.root.toList := by
  obtain ⟨hord, _, _, _, hlm, _⟩ := h
  cases hh : t.root.toList.head? with
  | none =>
    have hnil : t.root.toList = [] := List.head?_eq_none_iff.1 hh
    rw [traversal]
    rw [hh] at hlm
    rw [hlm, hnil]
  | some m =>
    rw [hh] at hlm
    have hm : m ∈ t.root.toList := head?_mem_self hh
    obtain ⟨c, l, r, p, heq⟩ := find_v2_present t.root m .root hord hm
    obtain ⟨ht', hL, hR⟩ := find_v2_bounds t.root m .root hord
      (by simp [Path.listL]) (by simp [Path.listR]) heq
    have hfill := find_v2_fill t.root m .root heq
    have hsplit : t.root.toList = p.listL ++ (l.toList ++ m :: r.toList) ++ p.listR := by
      have := fill_toList p (RB_Node.node c l m r)
      rw [hfill] at this
      simpa [Path.fill, RB_Node.toList] using this
    have hpw := (orderedP_iff_pairwise _).1 hord
    have hmin := sorted_head_le hpw hh
    have hLnil : p.listL = [] := by
      rw [List.eq_nil_iff_forall_not_mem]
      intro x hx
      have hxm : x ∈ t.root.toList := by
        rw [hsplit]
        simp [hx]
      exact absurd (hL x hx) (not_lt.2 (hmin x hxm))
    have hlnil : l = .nil := by
      refine (toList_eq_nil_iff l).1 ?_
      rw [List.eq_nil_iff_forall_not_mem]
      intro x hx
      have hxlt : x < m := (all_iff l).1 ht'.1 x hx
      have hxm : x ∈ t.root.toList := by
        rw [hsplit]
        simp [hx]
      exact absurd (hxlt) (not_lt.2 (hmin x hxm))
    subst hlnil
    rw [traversal, hlm]
    show walkFrom t.root.toList.length (find_v2 t.root m Path.root) = t.root.toList
    rw [heq]
    have hlen : t.root.toList.length = (r.toList.length + p.listR.length) + 1 := by
      rw [hsplit, hLnil]
      simp [RB_Node.toList]
    rw [hlen, walkFrom_spec (r.toList.length + p.listR.length) c .nil m r p rfl]
    rw [hsplit, hLnil]
    simp [RB_Node.toList]

/-- Claim C2: for every sequence of inserted keys, traversing the tree with
the iterator from begin() to end() yields exactly the stored keys, each
exactly once, in strictly ascending order. -/
theorem claim_C2 [LinearOrder K] (ks : List K) :
    traversalSpec (insertList ks : TreeState K) := by
  obtain ⟨h, hmem⟩ := insertList_stinv ks
  have heq := traversal_eq _ h
  have hpw := (orderedP_iff_pairwise _).1 h.ord
  exact ⟨heq, heq ▸ hpw, heq ▸ pairwise_lt_nodup hpw, fun k => by rw [heq]⟩

theorem find?_append {α : Type _} (p : α → Bool) :
    ∀ (l1 l2 : List α),
      (l1 ++ l2).find? p = ((l1.find? p).orElse (fun _ => l2.find? p))
  | [], l2 => by simp
  | a :: l1, l2 => by
    by_cases h : p a
    · simp [List.find?_cons, h]
    · simp only [List.cons_append, List.find?_cons, h, cond_false]
      exact find?_append p l1 l2

theorem find?_cons_true {α : Type _} (p : α → Bool) {a : α} (h : p a = true)
    (l : List α) : (a :: l).find? p = some a := by
  rw [List.find?_cons, h]

theorem find?_cons_false {α : Type _} (p : α → Bool) {a : α} (h : p a = false)
    (l : List α) : (a :: l).find? p = l.find? p := by
  rw [List.find?_cons, h]

theorem find?_eq_head_filter {α : Type _} (p : α → Bool) :
    ∀ l : List α, l.find? p = (l.filter p).head?
  | [] => rfl
  | a :: l => by
    by_cases h : p a
    · rw [find?_cons_true p h, List.filter_cons_of_pos h, List.head?_cons]
    · have h' : p a = false := by simpa using h
      rw [find?_cons_false p h', List.filter_cons_of_neg (by simp [h']),
        find?_eq_head_filter p l]

theorem none_orElse' {α : Type _} (f : Unit → Option α) :
    (Option.none).orElse f = f () := rfl

theorem some_orElse' {α : Type _} (a : α) (f : Unit → Option α) :
    (Option.some a).orElse f = some a := rfl

theorem find?_sorted_some [LinearOrder K] {p : K → Bool} :
    ∀ {l : List K} {w : K}, List.Pairwise (· < ·) l → l.find? p = some w →
      w ∈ l ∧ p w = true ∧ ∀ x ∈ l, p x = true → w ≤ x := by
  intro l
  induction l with
  | nil => intro w _ h; simp at h
  | cons a tl ih =>
    intro w hs h
    by_cases hp : p a
    · rw [find?_cons_true p hp] at h
      cases h
      refine ⟨List.mem_cons_self a tl, hp, ?_⟩
      intro x hx _
      rcases List.mem_cons.1 hx with rfl | hx
      · exact le_refl x
      · exact ((List.pairwise_cons.1 hs).1 x hx).le
    · have hp' : p a = false := by simpa using hp
      rw [find?_cons_false p hp'] at h
      obtain ⟨hw1, hw2, hw3⟩ := ih (List.pairwise_cons.1 hs).2 h
      refine ⟨List.mem_cons_of_mem a hw1, hw2, ?_⟩
      intro x hx hpx
      rcases List.mem_cons.1 hx with rfl | hx
      · exact absurd hpx (by simpa using hp)
      · exact hw3 x hx hpx

theorem lower_bound_eq_find [LinearOrder K] :
    ∀ (t : RB_Node K) (k : K), OrderedP t →
      lower_bound t k = t.toList.find? (fun x => decide (k ≤ x))
  | .nil, k, _ => rfl
  | .node c l v r, k, ho => by
    obtain ⟨hlv, hvr, hol, hor⟩ := ho
    rw [RB_Node.toList, find?_append]
    by_cases hvk : v < k
    · have hlnone : l.toList.find? (fun x => decide (k ≤ x)) = none := by
        rw [List.find?_eq_none]
        intro x hx
        simp only [decide_eq_true_eq]
        exact not_le.2 (lt_trans ((all_iff l).1 hlv x hx) hvk)
      have hvfalse : (fun x => decide (k ≤ x)) v = false :=
        decide_eq_false (not_le.2 hvk)
      rw [lower_bound, if_pos hvk, hlnone, none_orElse',
        find?_cons_false (fun x => decide (k ≤ x)) hvfalse]
      exact lower_bound_eq_find r k hor
    · have hvtrue : (fun x => decide (k ≤ x)) v = true := by
        simp [not_lt.1 hvk]
      rw [lower_bound, if_neg hvk, lower_bound_eq_find l k hol]
      cases hfl : l.toList.find? (fun x => decide (k ≤ x)) with
      | none => rw [none_orElse', find?_cons_true (fun x => decide (k ≤ x)) hvtrue]
      | some w => rw [some_orElse']

theorem upper_bound_eq_find [LinearOrder K] :
    ∀ (t : RB_Node K) (k : K), OrderedP t →
      upper_bound t k = t.toList.find? (fun x => decide (k < x))
  | .nil, k, _ => rfl
  | .node c l v r, k, ho => by
    obtain ⟨hlv, hvr, hol, hor⟩ := ho
    rw [RB_Node.toList, find?_append]
    by_cases hkv : k < v
    · have hvtrue : (fun x => decide (k < x)) v = true := by simp [hkv]
      rw [upper_bound, if_pos hkv, upper_bound_eq_find l k hol]
      cases hfl : l.toList.find? (fun x => decide (k < x)) with
      | none => rw [none_orElse', find?_cons_true (fun x => decide (k < x)) hvtrue]
      | some w => rw [some_orElse']
    · have hlnone : l.toList.find? (fun x => decide (k < x)) = none := by
        rw [List.find?_eq_none]
        intro x hx
        simp only [decide_eq_true_eq]
        exact fun hc => hkv (lt_trans hc ((all_iff l).1 hlv x hx))
      have hvfalse : (fun x => decide (k < x)) v = false :=
        decide_eq_false hkv
      rw [upper_bound, if_neg hkv, hlnone, none_orElse',
        find?_cons_false (fun x => decide (k < x)) hvfalse]
      exact upper_bound_eq_find r k hor

/-- Claim C6: for every tree built by a sequence of inserts and every key k,
lower_bound(k) returns the smallest stored key that is at least k (end(),
i.e. none, when no such key exists); upper_bound(k) returns the smallest
stored key strictly greater than k (end() when none); for a stored k,
lower_bound(k) locates k itself and upper_bound(k) locates k's in-order
successor, the first stored key after k. -/
theorem claim_C6 [LinearOrder K] (ks : List K) (k : K) :
    boundsSpec (insertList ks : TreeState K) k := by
  obtain ⟨h, _⟩ := insertList_stinv ks
  have hord := h.ord
  have hpw := (orderedP_iff_pairwise _).1 hord
  have hlb := lower_bound_eq_find (insertList ks : TreeState K).root k hord
  have hub := upper_bound_eq_find (insertList ks : TreeState K).root k hord
  refine ⟨?_, ?_, ?_, ?_, ?_, ?_⟩
  · intro w hw
    rw [hlb] at hw
    obtain ⟨h1, h2, h3⟩ := find?_sorted_some hpw hw
    refine ⟨h1, by simpa using h2, ?_⟩
    intro x hx hkx
    exact h3 x hx (by simpa using hkx)
  · intro hw x hx
    rw [hlb, List.find?_eq_none] at hw
    have := hw x hx
    simp only [decide_eq_true_eq] at this
    exact not_le.1 this
  · intro w hw
    rw [hub] at hw
    obtain ⟨h1, h2, h3⟩ := find?_sorted_some hpw hw
    refine ⟨h1, by simpa using h2, ?_⟩
    intro x hx hkx
    exact h3 x hx (by simpa using hkx)
  · intro hw x hx
    rw [hub, List.find?_eq_none] at hw
    have := hw x hx
    simp only [decide_eq_true_eq] at this
    exact not_lt.1 this
  · intro hk
    rw [hlb]
    cases hfind : (insertList ks : TreeState K).root.toList.find?
        (fun x => decide (k ≤ x)) with
    | none =>
      rw [List.find?_eq_none] at hfind
      exact absurd (by simp : (fun x => decide (k ≤ x)) k = true)
        (by simpa using hfind k hk)
    | some w =>
      obtain ⟨h1, h2, h3⟩ := find?_sorted_some hpw hfind
      have hkw : k ≤ w := by simpa using h2
      have hwk : w ≤ k := h3 k hk (by simp)
      rw [le_antisymm hwk hkw]
  · intro _
    rw [hub, find?_eq_head_filter]

/-- Claim C3 (failing evaluation): copy construction clones the structure of
the tree built from 1, 2 (same keys, colors, size), but because the root 1 is
the in-order minimum, the walk never takes a left descent into it, so the
copy's leftmost cache stays at its own sentinel and iterating the copy from
begin() to end() yields the empty sequence, not the source's sequence 1, 2. -/
theorem claim_C3_eval :
    (copyCtor (insertList [1, 2] : TreeState Nat)).root
      = (insertList [1, 2] : TreeState Nat).root ∧
    (copyCtor (insertList [1, 2] : TreeState Nat)).size = 2 ∧
    traversal (copyCtor (insertList [1, 2] : TreeState Nat)) = [] ∧
    traversal (insertList [1, 2] : TreeState Nat) = [1, 2] := by
  refine ⟨by decide, by decide, by decide, by decide⟩

/-- Claim C4 (failing evaluation): after move construction (reading the
misspelled member rhs.node_ as nodes_), the destination receives the whole
state, and the moved-from source does have size 0 and begin() == end(); but
its sentinel was stolen before std::exchange ran, so the source has no end
node and its leftmost is null, not its own sentinel as the claim states.
Move assignment swaps complete states, so its moved-from operand receives the
destination's former element and is not empty. -/
theorem claim_C4_eval :
    (moveCtor (insertList [1] : TreeState Nat)).1.root
      = (insertList [1] : TreeState Nat).root ∧
    (moveCtor (insertList [1] : TreeState Nat)).1.size = 1 ∧
    (moveCtor (insertList [1] : TreeState Nat)).2.size = 0 ∧
    beginEqEnd (moveCtor (insertList [1] : TreeState Nat)).2 = true ∧
    (moveCtor (insertList [1] : TreeState Nat)).2.hasEnd = false ∧
    (moveCtor (insertList [1] : TreeState Nat)).2.leftmost = NPtr.null ∧
    (moveAssign (insertList [1] : TreeState Nat) (insertList [2] : TreeState Nat)).2
      = (insertList [1] : TreeState Nat) ∧
    (moveAssign (insertList [1] : TreeState Nat)
      (insertList [2] : TreeState Nat)).2.size = 1 := by
  refine ⟨by decide, by decide, by decide, by decide, by decide, by decide,
    by decide, by decide⟩

/-- Claim C7 (failing evaluation): the copy constructor leaves the leftmost
cache at the copy's own sentinel although the copied tree {1, 2} is non-empty
with in-order minimum 1; the claim demands the cache equal the minimum node
after every completed public mutation, including copy construction. -/
theorem claim_C7_eval :
    (copyCtor (insertList [1, 2] : TreeState Nat)).leftmost = NPtr.sentinel ∧
    (copyCtor (insertList [1, 2] : TreeState Nat)).root.toList = [1, 2] ∧
    (copyCtor (insertList [1, 2] : TreeState Nat)).size = 2 ∧
    NPtr.sentinel ≠ (NPtr.node 1 : NPtr Nat) := by
  refine ⟨by decide, by decide, by decide, by decide⟩

/-- Witness for C1 at a concrete input: the tree built from 10, 20, 30
satisfies all checked red-black invariants. -/
theorem claim_C1_witness : rbInvariantsHold (insertList [10, 20, 30] : TreeState Nat) :=
  claim_C1 [10, 20, 30]

/-- Witness for C2 at a concrete input: the tree built from 5, 2, 8, 1, 9 is
traversed in strictly ascending order visiting every stored key once. -/
theorem claim_C2_witness : traversalSpec (insertList [5, 2, 8, 1, 9] : TreeState Nat) :=
  claim_C2 [5, 2, 8, 1, 9]

/-- Witness for C6 at a concrete input: bound queries on the tree built from
1, 3, 5, 7 with search key 4. -/
theorem claim_C6_witness : boundsSpec (insertList [1, 3, 5, 7] : TreeState Nat) 4 :=
  claim_C6 [1, 3, 5, 7] 4

/-- Witness for C8 at a concrete input: a mixed sequence of single and bulk
inserts offering the keys 5, 1, 5, 3, 3, 9 yields size 4. -/
theorem claim_C8_witness :
    (applyOps [InsOp.one 5, InsOp.many [1, 5, 3], InsOp.ilist [3, 9]] : TreeState Nat).size
      = (opKeys [InsOp.one 5, InsOp.many [1, 5, 3],
          InsOp.ilist ([3, 9] : List Nat)]).dedup.length ∧
    (emptyB (applyOps [InsOp.one 5, InsOp.many [1, 5, 3],
        InsOp.ilist [3, 9]] : TreeState Nat) = true ↔
      (applyOps [InsOp.one 5, InsOp.many [1, 5, 3],
        InsOp.ilist ([3, 9] : List Nat)]).size = 0) :=
  claim_C8 [InsOp.one 5, InsOp.many [1, 5, 3], InsOp.ilist [3, 9]]

/-- Witness for C9 at a concrete input: a failing allocation while inserting 3
into the tree built from 1, 2 propagates the error with the unchanged state. -/
theorem claim_C9_witness :
    ((insertE false (insertList [1, 2] : TreeState Nat) 3
        = Except.error (insertList [1, 2]) ∨
      ∃ v, insertE false (insertList [1, 2] : TreeState Nat) 3
        = Except.ok (insertList [1, 2], NPtr.node v, false)) ∧
     insertE true (insertList [1, 2] : TreeState Nat) 3
        = Except.ok (insert (insertList [1, 2]) 3)) :=
  claim_C9 (insertList [1, 2]) 3

/-- Witness for C10 at a concrete input: range insert and initializer-list
insert of 3, 1, 2 into the tree holding 1 equal the fold of single inserts. -/
theorem claim_C10_witness :
    insertRange (insertList [1] : TreeState Nat) [3, 1, 2]
      = ([3, 1, 2] : List Nat).foldl (fun s k => (insert s k).1) (insertList [1]) ∧
    insertIList (insertList [1] : TreeState Nat) [3, 1, 2]
      = ([3, 1, 2] : List Nat).foldl (fun s k => (insert s k).1) (insertList [1]) :=
  claim_C10 (insertList [1]) [3, 1, 2]

end yLab
